import Mathlib

/-!
# csv2structs: header binding and row decoding

A shallow embedding of the Go package `csv2structs` (files `fields.go`, `headers.go`,
`options.go`, `remap.go`, `parser.go`, `csv2structs.go`) together with theorems about it.

Modelling conventions.

* A Go result pair `(value, error)` in which exactly one side is non-nil is an `Outcome`:
  `ok v` stands for `(v, nil)`, `err e` for `(nil, e)`; a run-time panic is `panic p`.
* A Go `string` is a Lean `String` (text is taken to be valid UTF-8).
* `reflect`: a type is described by its kind and the list `reflect.VisibleFields` returns for
  it. Struct types are flat: fields promoted through embedded pointers are not modelled.
* `encoding/csv`: the reader is modelled after tokenisation, as the sequence of records and
  failures its `Read` method yields. It does not interpret a byte-order mark, so a mark at the
  start of the input is the start of the first cell of the first record.
* `strconv.ParseInt`, `ParseUint` and `ParseBool` are modelled from their documentation;
  `strconv.ParseFloat` and the `float32` conversion are parameters (`FloatLib`).
* The iteration order of a Go map is not fixed: each `range` over the binding takes a seed, and
  `rangeOrder` turns it into an enumeration of the entries.
-/

namespace Csv2structs

/-! ## reflect: kinds, fields, types -/

/-- The kinds of `reflect.Kind`, in the order of the Go declaration. -/
inductive Kind
  | Invalid | Bool
  | Int | Int8 | Int16 | Int32 | Int64
  | Uint | Uint8 | Uint16 | Uint32 | Uint64 | Uintptr
  | Float32 | Float64 | Complex64 | Complex128
  | Array | Chan | Func | Interface | Map | Pointer | Slice | String | Struct | UnsafePointer
  deriving DecidableEq, Repr

/-- The text the method `String` of `reflect.Kind` returns. -/
def kindName : Kind → String
  | .Invalid => "invalid" | .Bool => "bool"
  | .Int => "int" | .Int8 => "int8" | .Int16 => "int16" | .Int32 => "int32" | .Int64 => "int64"
  | .Uint => "uint" | .Uint8 => "uint8" | .Uint16 => "uint16" | .Uint32 => "uint32"
  | .Uint64 => "uint64" | .Uintptr => "uintptr"
  | .Float32 => "float32" | .Float64 => "float64"
  | .Complex64 => "complex64" | .Complex128 => "complex128"
  | .Array => "array" | .Chan => "chan" | .Func => "func" | .Interface => "interface"
  | .Map => "map" | .Pointer => "ptr" | .Slice => "slice" | .String => "string"
  | .Struct => "struct" | .UnsafePointer => "unsafe.Pointer"

/-- Size in bits of the integer kinds (`int` and `uint` are 64 bits wide, as on the 64-bit
targets); `0` for the other kinds. -/
def kindBits : Kind → Nat
  | .Int => 64 | .Int8 => 8 | .Int16 => 16 | .Int32 => 32 | .Int64 => 64
  | .Uint => 64 | .Uint8 => 8 | .Uint16 => 16 | .Uint32 => 32 | .Uint64 => 64 | .Uintptr => 64
  | .Float32 => 32 | .Float64 => 64
  | _ => 0

/-- The part of `reflect.StructField` the package reads: the name, the package path (empty
exactly for exported fields) and the kind of the field's type. -/
structure StructField where
  Name : String
  PkgPath : String
  Kind : Kind
  deriving DecidableEq, Repr

/-- `reflect.StructField.IsExported`. -/
def StructField.IsExported (f : StructField) : Bool := f.PkgPath == ""

/-- A `reflect.Type`: its kind and, for a struct, its visible fields in declaration order. -/
structure RType where
  Kind : Kind
  VisibleFields : List StructField
  deriving DecidableEq, Repr

/-- A type parameter `T`, seen through `reflect.TypeOf` of its zero value: `none` when that is
the nil type (`T` is an interface type). -/
abbrev TypeParam := Option RType

/-! ## Errors and outcomes -/

/-- The error values that occur. -/
inductive Error
  | errNoVisibleFields
  | errNoExportedFields
  | errInvalidType
  /-- An error made by `fmt.Errorf`, with its message. -/
  | errorf (msg : String)
  /-- The end-of-input signal `io.EOF`. -/
  | EOF
  /-- The error `csv.ErrFieldCount` (wrapped by the reader with a position, not modelled). -/
  | ErrFieldCount
  /-- Another error of the csv reader or of the underlying `io.Reader`, passed through. -/
  | reader (msg : String)
  deriving DecidableEq, Repr

/-- The text the method `Error` returns. -/
def Error.Message : Error → String
  | .errNoVisibleFields => "no visible fields"
  | .errNoExportedFields => "no exported fields"
  | .errInvalidType => "invalid type; must be a struct"
  | .errorf msg => msg
  | .EOF => "EOF"
  | .ErrFieldCount => "wrong number of fields"
  | .reader msg => msg

/-- The run-time panics that the modelled code can raise. -/
inductive Panic
  /-- An index expression `row[i]` with `i` out of range. -/
  | indexOutOfRange
  /-- A read through a nil `io.Reader`. -/
  | nilDereference
  /-- The `reflect` call `FieldByName` on a value that is not a struct. -/
  | notStruct
  /-- A `reflect` setter on a field that cannot be set (an unexported field). -/
  | notSettable
  deriving DecidableEq, Repr

/-- The result of a call: `ok v` is `(v, nil)`, `err e` is `(nil, e)`. -/
inductive Outcome (α : Type)
  | ok (val : α)
  | err (e : Error)
  | panic (p : Panic)
  deriving DecidableEq, Repr

/-! ## strconv -/

/-- The value of a decimal digit. -/
def digitVal (c : Char) : Option Nat :=
  if '0' ≤ c ∧ c ≤ '9' then some (c.toNat - 48) else none

/-- Left-to-right accumulation of decimal digits; `none` on any other character. -/
def parseDigits : List Char → Nat → Option Nat
  | [], acc => some acc
  | c :: cs, acc =>
    match digitVal c with
    | none => none
    | some d => parseDigits cs (acc * 10 + d)

/-- The natural number written by a non-empty string of decimal digits. -/
def parseMagnitude (cs : List Char) : Option Nat :=
  match cs with
  | [] => none
  | _ :: _ => parseDigits cs 0

/-- `strconv.ParseUint(s, 10, bitSize)`; `none` when it returns an error (syntax or range). -/
def ParseUint (s : String) (bitSize : Nat) : Option Nat :=
  match parseMagnitude s.data with
  | none => none
  | some n => if n < 2 ^ bitSize then some n else none

/-- `strconv.ParseInt(s, 10, bitSize)`; `none` when it returns an error (syntax or range). -/
def ParseInt (s : String) (bitSize : Nat) : Option Int :=
  match s.data with
  | '+' :: cs =>
    match parseMagnitude cs with
    | none => none
    | some n => if n < 2 ^ (bitSize - 1) then some (n : Int) else none
  | '-' :: cs =>
    match parseMagnitude cs with
    | none => none
    | some n => if n ≤ 2 ^ (bitSize - 1) then some (-(n : Int)) else none
  | cs =>
    match parseMagnitude cs with
    | none => none
    | some n => if n < 2 ^ (bitSize - 1) then some (n : Int) else none

/-- `strconv.ParseBool`; `none` when it returns an error. -/
def ParseBool (s : String) : Option Bool :=
  if s = "1" ∨ s = "t" ∨ s = "T" ∨ s = "TRUE" ∨ s = "true" ∨ s = "True" then some true
  else if s = "0" ∨ s = "f" ∨ s = "F" ∨ s = "FALSE" ∨ s = "false" ∨ s = "False" then some false
  else none

/-- The floating-point part of the Go runtime, taken as a parameter. A `float64` is named by
its IEEE-754 bit pattern and a `float32` likewise. -/
structure FloatLib where
  /-- The call `strconv.ParseFloat(s, 64)`; `none` when it returns an error. -/
  ParseFloat : String → Option Nat
  /-- The conversion `float32(x)`. -/
  toFloat32 : Nat → Nat

/-- The conversion of a 64-bit signed integer to the signed integer type of `w` bits. -/
def wrapInt (w : Nat) (x : Int) : Int :=
  (x + 2 ^ (w - 1)) % 2 ^ w - 2 ^ (w - 1)

/-- The conversion of a 64-bit unsigned integer to the unsigned integer type of `w` bits. -/
def wrapUint (w : Nat) (x : Nat) : Nat :=
  x % 2 ^ w

/-! ## Values and records -/

/-- The value held by a struct field. Kinds the decoder never writes only have a zero value. -/
inductive Value
  | bool (b : Bool)
  | int (v : Int)
  | uint (v : Nat)
  | float (bits : Nat)
  | string (s : String)
  | zero (k : Kind)
  deriving DecidableEq, Repr

/-- The zero value of a field of kind `k`. -/
def zeroValue : Kind → Value
  | .Bool => .bool false
  | .Int | .Int8 | .Int16 | .Int32 | .Int64 => .int 0
  | .Uint | .Uint8 | .Uint16 | .Uint32 | .Uint64 | .Uintptr => .uint 0
  | .Float32 | .Float64 => .float 0
  | .String => .string ""
  | k => .zero k

/-- A struct value: its visible fields in declaration order, each with its value. -/
abbrev Record := List (String × Value)

/-- The declaration `var obj T`. -/
def zeroRecord (fields : List StructField) : Record :=
  fields.map (fun f => (f.Name, zeroValue f.Kind))

/-- Assignment to the field called `name` (the first one of that name). -/
def Record.set : Record → String → Value → Record
  | [], _, _ => []
  | (n, v) :: rest, name, w =>
    if n = name then (n, w) :: rest else (n, v) :: Record.set rest name w

/-- The value of the field called `name` (the first one of that name). -/
def Record.get : Record → String → Option Value
  | [], _ => none
  | (n, v) :: rest, name => if n = name then some v else Record.get rest name

/-- The `reflect` lookup `FieldByName` on a struct with the given visible fields. -/
def FieldByName : List StructField → String → Option StructField
  | [], _ => none
  | f :: rest, name => if f.Name = name then some f else FieldByName rest name

/-! ## fields.go -/

/-- The function `getFields`: the exported visible fields of `T`, in declaration order. -/
def getFields (T : TypeParam) : Outcome (List StructField) :=
  match T with
  | none => .err .errInvalidType
  | some tt =>
    if tt.Kind ≠ Kind.Struct then .err .errInvalidType
    else
      let allFields := tt.VisibleFields
      if allFields.length = 0 then .err .errNoVisibleFields
      else
        let fields := allFields.foldl (fun fields field =>
          if field.IsExported then fields ++ [field] else fields) []
        if fields.length = 0 then .err .errNoExportedFields
        else .ok fields

/-! ## options.go -/

/-- The type `HeaderType`, an `int32`. -/
abbrev HeaderType := Int

/-- Do not munge csv headers. -/
def HeaderTypeNone : HeaderType := 0

/-- Headers in snake_case. -/
def HeaderTypeSnake : HeaderType := 1

/-- The struct `options`; a nil `HeaderTransform` is `none`. -/
structure options where
  HeaderType : HeaderType
  HeaderTransform : Option (String → String)

/-- The functional option type of the package (`Option` in the source). -/
abbrev ParseOption := options → options

/-- The option `WithHeaderType`. -/
def WithHeaderType (ht : HeaderType) : ParseOption :=
  fun c => { c with HeaderType := ht }

/-- The option `WithHeaderTransform`. -/
def WithHeaderTransform (fn : Option (String → String)) : ParseOption :=
  fun c => { c with HeaderTransform := fn }

/-- The function `getOptions`: the default is snake case, then every option is applied in
order. -/
def getOptions (opts : List ParseOption) : options :=
  opts.foldl (fun o opt => opt o) { HeaderType := HeaderTypeSnake, HeaderTransform := none }

/-! ## remap.go -/

/-- The function `remap`. -/
def remap {T K : Type} (objs : List T) (fn : T → K) : List K :=
  objs.foldl (fun result obj => result ++ [fn obj]) []

/-! ## headers.go -/

/-- The call `strings.Split(s, "_")` on the runes of `s`. -/
def splitUnderscore : List Char → List (List Char)
  | [] => [[]]
  | c :: cs =>
    if c = '_' then [] :: splitUnderscore cs
    else
      match splitUnderscore cs with
      | [] => [[c]]
      | part :: parts => (c :: part) :: parts

/-- The runes that have case in the model: the ASCII letters. -/
def isCased (c : Char) : Bool := c.isAlpha

/-- The runes that do not end a word: ASCII letters and digits, the underscore, and the format
character U+FEFF. -/
def isWordRune (c : Char) : Bool := c.isAlphanum || c = '_' || c = '\uFEFF'

/-- The title caser `cases.Title(language.English)` as a transducer over runes, `mid` telling
whether a cased rune of the current word has been seen: the first cased rune of a word is
upper-cased, the later ones are lower-cased, every other rune is copied. The model is that of
the library on ASCII letters, digits, the underscore and U+FEFF; any other rune is copied and
ends the word. -/
def titleRunes : Bool → List Char → List Char
  | _, [] => []
  | mid, c :: cs =>
    if isCased c then (if mid then c.toLower else c.toUpper) :: titleRunes true cs
    else c :: titleRunes (if isWordRune c then mid else false) cs

/-- The function `snakeToTitle`: split on the underscore, title-case every part, join with the
empty separator. -/
def snakeToTitle (header : String) : String :=
  let cleaned := (splitUnderscore header.data).foldl
    (fun cleaned part => cleaned ++ [titleRunes false part]) []
  String.mk cleaned.flatten

/-- The function `getHeader`. -/
def getHeader (opts : options) (header : List String) : List String :=
  match opts.HeaderTransform with
  | some fn => remap header fn
  | none =>
    if opts.HeaderType = HeaderTypeSnake then remap header snakeToTitle
    else header

/-- A Go `map[string]int`: its entries, keys pairwise distinct, in insertion order. -/
abbrev GoMap := List (String × Nat)

/-- The index expression `m[k]` in its two-result form. -/
def GoMap.get? : GoMap → String → Option Nat
  | [], _ => none
  | (k, v) :: rest, key => if k = key then some v else GoMap.get? rest key

/-- Whether `k` is a key of the map (the `ok` of `_, ok := m[k]`). -/
def GoMap.contains (m : GoMap) (k : String) : Bool := (m.get? k).isSome

/-- The assignment `m[k] = v`. -/
def GoMap.insert : GoMap → String → Nat → GoMap
  | [], key, val => [(key, val)]
  | (k, v) :: rest, key, val =>
    if k = key then (k, val) :: rest else (k, v) :: GoMap.insert rest key val

/-- The inner loop of `mapHeader`: the index of the first header equal to `name`, scanning
from position `i`. -/
def firstMatch (name : String) : List String → Nat → Option Nat
  | [], _ => none
  | h :: hs, i => if name = h then some i else firstMatch name hs (i + 1)

/-- The first loop of `mapHeader`, over the fields. -/
def fieldLoop (header : List String) :
    List StructField → GoMap → List String → GoMap × List String
  | [], foundHeaders, missingHeaders => (foundHeaders, missingHeaders)
  | f :: fs, foundHeaders, missingHeaders =>
    let found1 :=
      match firstMatch f.Name header 0 with
      | some i => foundHeaders.insert f.Name i
      | none => foundHeaders
    let missing1 :=
      if found1.contains f.Name then missingHeaders else missingHeaders ++ [f.Name]
    fieldLoop header fs found1 missing1

/-- The second loop of `mapHeader`, over the headers. -/
def headerLoop (foundHeaders : GoMap) : List String → List String → List String
  | [], missingHeaders => missingHeaders
  | h :: hs, missingHeaders =>
    headerLoop foundHeaders hs
      (if foundHeaders.contains h then missingHeaders else missingHeaders ++ [h])

/-- The message of the error of `mapHeader`. -/
def missingMessage (missingHeaders : List String) : String :=
  "missing header" ++ (if missingHeaders.length > 1 then "s" else "") ++ ": " ++
    ", ".intercalate missingHeaders

/-- The function `mapHeader`. -/
def mapHeader (fields : List StructField) (header : List String) : Outcome GoMap :=
  let (foundHeaders, missing0) := fieldLoop header fields [] []
  let missingHeaders := headerLoop foundHeaders header missing0
  if missingHeaders.length > 0 ∨ foundHeaders.length ≠ fields.length then
    .err (.errorf (missingMessage missingHeaders))
  else .ok foundHeaders

/-! ## encoding/csv -/

/-- What one call of the csv reader finds next in the input: a record, or a failure (an I/O
error or malformed text) with its message. -/
inductive Event
  | record (cells : List String)
  | failure (msg : String)
  deriving DecidableEq, Repr

/-- An `io.Reader` handed to the package: `none` is the nil reader, otherwise what the csv
reader will find in it, in order; after the last event the input is exhausted. -/
abbrev IoReader := Option (List Event)

/-- The state of a `csv.Reader`. -/
structure CsvReader where
  FieldsPerRecord : Nat
  input : IoReader

/-- The constructor `csv.NewReader`. -/
def csvNewReader (reader : IoReader) : CsvReader :=
  { FieldsPerRecord := 0, input := reader }

/-- The method `csv.Reader.Read`. The first record fixes the number of cells per record; a
later record of another length is answered with `ErrFieldCount`. -/
def CsvReader.Read (r : CsvReader) : Outcome (List String) × CsvReader :=
  match r.input with
  | none => (.panic .nilDereference, r)
  | some [] => (.err .EOF, r)
  | some (.failure msg :: rest) => (.err (.reader msg), { r with input := some rest })
  | some (.record cells :: rest) =>
    if r.FieldsPerRecord > 0 then
      if cells.length ≠ r.FieldsPerRecord then (.err .ErrFieldCount, { r with input := some rest })
      else (.ok cells, { r with input := some rest })
    else (.ok cells, { FieldsPerRecord := cells.length, input := some rest })

/-- The number of events the reader has not consumed yet. -/
def CsvReader.pending (r : CsvReader) : Nat :=
  match r.input with
  | none => 0
  | some es => es.length

/-! ## Map iteration -/

/-- An enumeration of `m` chosen by `seed`: the entry at position `seed % n` comes first, and
the remaining `n - 1` entries are enumerated by `seed / n`. -/
def pickOrder {α : Type} : Nat → Nat → List α → List α
  | 0, _, _ => []
  | n + 1, seed, m =>
    match m.get? (seed % (n + 1)) with
    | none => []
    | some a => a :: pickOrder n (seed / (n + 1)) (m.eraseIdx (seed % (n + 1)))

/-- The order in which one `range` over the map `m` visits its entries. -/
def rangeOrder {α : Type} (seed : Nat) (m : List α) : List α :=
  pickOrder m.length seed m

/-! ## parser.go -/

/-- The struct `parser`; its type parameter is passed to the methods. -/
structure parser where
  opts : options
  reader : CsvReader
  fields : List StructField
  header : GoMap

/-- The function `NewParser`. -/
def NewParser (T : TypeParam) (reader : IoReader) (opts : List ParseOption) : Outcome parser :=
  match getFields T with
  | .err e => .err e
  | .panic q => .panic q
  | .ok fields =>
    let r := csvNewReader reader
    match r.Read with
    | (.err e, _) => .err e
    | (.panic q, _) => .panic q
    | (.ok header, r1) =>
      let o := getOptions opts
      let h := getHeader o header
      match mapHeader fields h with
      | .err e => .err e
      | .panic q => .panic q
      | .ok headerMap => .ok { opts := o, reader := r1, fields := fields, header := headerMap }

/-- The declaration `var obj T` of `Read`. -/
def zeroOf (T : TypeParam) : Record :=
  match T with
  | none => []
  | some tt => zeroRecord tt.VisibleFields

/-- A `reflect` setter on the field `field` of `obj`: it panics on an unexported field. -/
def setField (obj : Record) (field : StructField) (v : Value) : Outcome Record :=
  if field.IsExported then .ok (obj.set field.Name v) else .panic .notSettable

/-- One pass of the loop body of `Read`, for the binding entry `(f, i)`. -/
def decodeField (fl : FloatLib) (T : TypeParam) (row : List String) (obj : Record)
    (f : String) (i : Nat) : Outcome Record :=
  match T with
  | none => .panic .notStruct
  | some tt =>
    if tt.Kind ≠ Kind.Struct then .panic .notStruct
    else
      match FieldByName tt.VisibleFields f with
      | none => .err (.errorf ("unsupported type: " ++ kindName Kind.Invalid))
      | some field =>
        match field.Kind with
        | .Int | .Int8 | .Int16 | .Int32 | .Int64 =>
          match row.get? i with
          | none => .panic .indexOutOfRange
          | some cell =>
            match ParseInt cell 64 with
            | none => .err (.errorf ("failed to convert \"" ++ cell ++ "\" to int"))
            | some val => setField obj field (.int (wrapInt (kindBits field.Kind) val))
        | .String =>
          match row.get? i with
          | none => .panic .indexOutOfRange
          | some cell => setField obj field (.string cell)
        | .Bool =>
          match row.get? i with
          | none => .panic .indexOutOfRange
          | some cell =>
            match ParseBool cell with
            | none => .err (.errorf ("failed to convert \"" ++ cell ++ "\" to bool"))
            | some val => setField obj field (.bool val)
        | .Float64 | .Float32 =>
          match row.get? i with
          | none => .panic .indexOutOfRange
          | some cell =>
            match fl.ParseFloat cell with
            | none => .err (.errorf ("failed to convert \"" ++ cell ++ "\" to float"))
            | some val =>
              setField obj field
                (.float (if field.Kind = Kind.Float32 then fl.toFloat32 val else val))
        | .Uint | .Uint8 | .Uint16 | .Uint32 | .Uint64 =>
          match row.get? i with
          | none => .panic .indexOutOfRange
          | some cell =>
            match ParseUint cell 64 with
            | none => .err (.errorf ("failed to convert \"" ++ cell ++ "\" to uint"))
            | some val => setField obj field (.uint (wrapUint (kindBits field.Kind) val))
        | k => .err (.errorf ("unsupported type: " ++ kindName k))

/-- The loop of `Read` over the binding entries, in the order given. -/
def decodeRow (fl : FloatLib) (T : TypeParam) (row : List String) :
    List (String × Nat) → Record → Outcome Record
  | [], obj => .ok obj
  | (f, i) :: rest, obj =>
    match decodeField fl T row obj f i with
    | .ok obj1 => decodeRow fl T row rest obj1
    | .err e => .err e
    | .panic q => .panic q

/-- The method `Read`; `seed` fixes the order in which the binding is ranged over. -/
def parser.Read (fl : FloatLib) (T : TypeParam) (p : parser) (seed : Nat) :
    Outcome Record × parser :=
  match p.reader.Read with
  | (.err e, r1) => (.err e, { p with reader := r1 })
  | (.panic q, r1) => (.panic q, { p with reader := r1 })
  | (.ok row, r1) =>
    (decodeRow fl T row (rangeOrder seed p.header) (zeroOf T), { p with reader := r1 })

/-- The loop of `ReadAll`, bounded by `fuel` iterations; the `k`-th call of `Read` takes the
`k`-th seed (`0` once the seeds are used up). -/
def readAllLoop (fl : FloatLib) (T : TypeParam) :
    Nat → parser → List Nat → List Record → Outcome (List Record) × parser
  | 0, p, _, objects => (.ok objects, p)
  | fuel + 1, p, seeds, objects =>
    match parser.Read fl T p (seeds.headD 0) with
    | (.err .EOF, p1) => (.ok objects, p1)
    | (.err e, p1) => (.err e, p1)
    | (.panic q, p1) => (.panic q, p1)
    | (.ok obj, p1) => readAllLoop fl T fuel p1 seeds.tail (objects ++ [obj])

/-- The method `ReadAll`. Every call of `Read` consumes one pending event or reports the end
of the input, so one more iteration than there are pending events is enough. -/
def parser.ReadAll (fl : FloatLib) (T : TypeParam) (p : parser) (seeds : List Nat) :
    Outcome (List Record) × parser :=
  readAllLoop fl T (p.reader.pending + 1) p seeds []

/-! ## csv2structs.go -/

/-- The function `Parse`. -/
def Parse (fl : FloatLib) (T : TypeParam) (reader : IoReader) (opts : List ParseOption)
    (seeds : List Nat) : Outcome (List Record) :=
  match NewParser T reader opts with
  | .err e => .err e
  | .panic q => .panic q
  | .ok p => (parser.ReadAll fl T p seeds).1

/-! ## Notions used to state the properties -/

/-- The names a failed binding lists: the names of the fields that no header equals, in
declaration order, followed by the headers that no field is called, in header order. -/
def unmatchedNames (fields : List StructField) (header : List String) : List String :=
  (fields.map (·.Name)).filter (fun n => decide (n ∉ header)) ++
    header.filter (fun h => decide (h ∉ fields.map (·.Name)))

/-! ## Sample inputs -/

/-- An exported string field `A`. -/
def fieldA : StructField := { Name := "A", PkgPath := "", Kind := Kind.String }

/-- An exported `int` field `B`. -/
def fieldB : StructField := { Name := "B", PkgPath := "", Kind := Kind.Int }

/-- A floating-point library that accepts no text (enough for inputs without float fields). -/
def noFloats : FloatLib := { ParseFloat := fun _ => none, toFloat32 := fun x => x }

/-- The struct of the byte-order-mark test: `struct { Foo string; Bar string }`. -/
def fooBar : TypeParam :=
  some { Kind := Kind.Struct, VisibleFields := [
    { Name := "Foo", PkgPath := "", Kind := Kind.String },
    { Name := "Bar", PkgPath := "", Kind := Kind.String }] }

/-- The struct `struct { A int8 }`. -/
def narrowInt : TypeParam :=
  some { Kind := Kind.Struct, VisibleFields := [{ Name := "A", PkgPath := "", Kind := Kind.Int8 }] }

/-- The struct `struct { A uint8 }`. -/
def narrowUint : TypeParam :=
  some { Kind := Kind.Struct,
         VisibleFields := [{ Name := "A", PkgPath := "", Kind := Kind.Uint8 }] }

/-- The interface type of the tests: `interface{}`. -/
def ifaceType : TypeParam := none

/-- The struct `struct{}`. -/
def noFields : TypeParam := some { Kind := Kind.Struct, VisibleFields := [] }

/-- The struct `struct { _ string }`. -/
def noExportedFields : TypeParam :=
  some { Kind := Kind.Struct,
         VisibleFields := [{ Name := "_", PkgPath := "csv2structs", Kind := Kind.String }] }

/-- The kinds the row decoder converts: the cases of the switch of `Read` other than the
default one. -/
def supportedKind : Kind → Bool
  | .Int | .Int8 | .Int16 | .Int32 | .Int64 => true
  | .String => true
  | .Bool => true
  | .Float64 | .Float32 => true
  | .Uint | .Uint8 | .Uint16 | .Uint32 | .Uint64 => true
  | _ => false

/-- The conversion table of the row decoder: a signed or unsigned integer is parsed in base
10 sized to the width of the field, a float is parsed at 64 bits and narrowed for a 32-bit
field, a bool is parsed as a boolean literal, a string is taken verbatim. -/
def convertCell (fl : FloatLib) (k : Kind) (cell : String) : Option Value :=
  match k with
  | .Int | .Int8 | .Int16 | .Int32 | .Int64 => (ParseInt cell (kindBits k)).map Value.int
  | .Uint | .Uint8 | .Uint16 | .Uint32 | .Uint64 => (ParseUint cell (kindBits k)).map Value.uint
  | .Float64 => (fl.ParseFloat cell).map Value.float
  | .Float32 => (fl.ParseFloat cell).map (fun v => Value.float (fl.toFloat32 v))
  | .Bool => (ParseBool cell).map Value.bool
  | .String => some (Value.string cell)
  | _ => none

/-- What the switch of `Read` computes from a cell for a field of a supported kind: the value
it is about to store, or the conversion error. -/
def parseCell (fl : FloatLib) (k : Kind) (cell : String) : Outcome Value :=
  match k with
  | .Int | .Int8 | .Int16 | .Int32 | .Int64 =>
    match ParseInt cell 64 with
    | none => .err (.errorf ("failed to convert \"" ++ cell ++ "\" to int"))
    | some val => .ok (.int (wrapInt (kindBits k) val))
  | .String => .ok (.string cell)
  | .Bool =>
    match ParseBool cell with
    | none => .err (.errorf ("failed to convert \"" ++ cell ++ "\" to bool"))
    | some val => .ok (.bool val)
  | .Float64 | .Float32 =>
    match fl.ParseFloat cell with
    | none => .err (.errorf ("failed to convert \"" ++ cell ++ "\" to float"))
    | some val => .ok (.float (if k = Kind.Float32 then fl.toFloat32 val else val))
  | .Uint | .Uint8 | .Uint16 | .Uint32 | .Uint64 =>
    match ParseUint cell 64 with
    | none => .err (.errorf ("failed to convert \"" ++ cell ++ "\" to uint"))
    | some val => .ok (.uint (wrapUint (kindBits k) val))
  | k => .err (.errorf ("unsupported type: " ++ kindName k))

/-- The outcome of one pass of the loop body of `Read` for the entry `(f, i)`, apart from the
record it updates: the value stored in field `f`, or the error or panic that ends `Read`. -/
def cellOutcome (fl : FloatLib) (tt : RType) (row : List String) (f : String) (i : Nat) :
    Outcome Value :=
  match FieldByName tt.VisibleFields f with
  | none => .err (.errorf ("unsupported type: " ++ kindName Kind.Invalid))
  | some field =>
    if supportedKind field.Kind then
      match row.get? i with
      | none => .panic .indexOutOfRange
      | some cell =>
        match parseCell fl field.Kind cell with
        | .ok v => if field.IsExported then .ok v else .panic .notSettable
        | .err e => .err e
        | .panic q => .panic q
    else .err (.errorf ("unsupported type: " ++ kindName field.Kind))

/-- The records of a result: `none` when the call fails (Go returns a nil list then). -/
def Outcome.records {α : Type} : Outcome α → Option α
  | .ok v => some v
  | _ => none

/-- What Go guarantees of the visible fields of a struct type: the exported fields have
pairwise distinct names, and looking up the name of an exported field finds that field. -/
def RType.WellFormed (tt : RType) : Prop :=
  ((tt.VisibleFields.filter (·.IsExported)).map (·.Name)).Nodup ∧
    ∀ F ∈ tt.VisibleFields, F.IsExported = true → FieldByName tt.VisibleFields F.Name = some F

instance (tt : RType) : Decidable tt.WellFormed := by
  unfold RType.WellFormed
  infer_instance

/-- The struct of the simple test:
`struct { Ident int; Name string; OtherThing string; hiddenFieldsAreIgnored uint64 }`. -/
def simpleObj : RType :=
  { Kind := Kind.Struct, VisibleFields := [
    { Name := "Ident", PkgPath := "", Kind := Kind.Int },
    { Name := "Name", PkgPath := "", Kind := Kind.String },
    { Name := "OtherThing", PkgPath := "", Kind := Kind.String },
    { Name := "hiddenFieldsAreIgnored", PkgPath := "csv2structs", Kind := Kind.Uint64 }] }

/-- The target kinds a conversion error names. -/
inductive TargetKind
  | int | uint | bool | float
  deriving DecidableEq, Repr

/-- The name of a target kind in the conversion error. -/
def TargetKind.name : TargetKind → String
  | .int => "int"
  | .uint => "uint"
  | .bool => "bool"
  | .float => "float"

/-- The target kind of a field kind: signed integers, unsigned integers, bool and floats;
`none` for strings, which never fail, and for the unsupported kinds. -/
def targetOf : Kind → Option TargetKind
  | .Int | .Int8 | .Int16 | .Int32 | .Int64 => some .int
  | .Uint | .Uint8 | .Uint16 | .Uint32 | .Uint64 => some .uint
  | .Bool => some .bool
  | .Float32 | .Float64 => some .float
  | _ => none

/-- Whether a cell is parseable as a target kind: as a signed base-10 integer, an unsigned
base-10 integer, a boolean literal, a decimal float. -/
def parseable (fl : FloatLib) : TargetKind → String → Bool
  | .int, v => (ParseInt v 64).isSome
  | .uint, v => (ParseUint v 64).isSome
  | .bool, v => (ParseBool v).isSome
  | .float, v => (fl.ParseFloat v).isSome

/-- The value a pass of the loop of `Read` stores for a binding entry (of no interest when
the pass fails). -/
def storedValue (fl : FloatLib) (tt : RType) (row : List String) (e : String × Nat) : Value :=
  match cellOutcome fl tt row e.1 e.2 with
  | .ok v => v
  | _ => Value.zero Kind.Invalid

/-- The struct of the conversion tests: `struct { Bar int }`. -/
def fooInt : RType :=
  { Kind := Kind.Struct, VisibleFields := [{ Name := "Bar", PkgPath := "", Kind := Kind.Int }] }

/-- A struct with a field of an unsupported kind: `struct { A int; B []string }`. -/
def withSlice : RType :=
  { Kind := Kind.Struct, VisibleFields := [
    { Name := "A", PkgPath := "", Kind := Kind.Int },
    { Name := "B", PkgPath := "", Kind := Kind.Slice }] }

/-- The cells of a row rearranged by a list of column positions: position `j` of the result
holds the cell at position `σ[j]`. -/
def permuteCols (σ : List Nat) (row : List String) : List String :=
  σ.map (fun i => row.getD i "")

/-- The struct `struct { A string }`. -/
def oneString : RType :=
  { Kind := Kind.Struct, VisibleFields := [{ Name := "A", PkgPath := "", Kind := Kind.String }] }

/-- The transform the options select for a single header: the custom transform when one is
set, otherwise `snakeToTitle` in snake mode, otherwise the identity. -/
def headerTransform (o : options) : String → String :=
  match o.HeaderTransform with
  | some fn => fn
  | none => if o.HeaderType = HeaderTypeSnake then snakeToTitle else id

/-- A part with its first letter upper-cased and its remaining letters lower-cased; what
stands before the first letter is kept. -/
def capitalizePart : List Char → List Char
  | [] => []
  | c :: cs => if c.isAlpha then c.toUpper :: cs.map Char.toLower else c :: capitalizePart cs

/-- A struct with two integer fields: `struct { A int; B int }`. -/
def twoInts : RType :=
  { Kind := Kind.Struct, VisibleFields := [
    { Name := "A", PkgPath := "", Kind := Kind.Int },
    { Name := "B", PkgPath := "", Kind := Kind.Int }] }

/-- A parser for `twoInts` about to read the row `x,y`. -/
def twoIntsParser : parser :=
  { opts := getOptions [],
    reader := { FieldsPerRecord := 2, input := some [.record ["x", "y"]] },
    fields := twoInts.VisibleFields, header := [("A", 0), ("B", 1)] }

/-- A parser for `simpleObj` about to read the row `1,foo,bar`. -/
def simpleParser : parser :=
  { opts := getOptions [],
    reader := { FieldsPerRecord := 3, input := some [.record ["1", "foo", "bar"]] },
    fields := simpleObj.VisibleFields.filter (·.IsExported),
    header := [("Ident", 0), ("Name", 1), ("OtherThing", 2)] }

/-- A record of a struct with the given visible fields in which every field that is not
exported holds the zero value of its kind: the entries of the record are those of the fields,
position by position. -/
def unexportedZero (fields : List StructField) (rec : Record) : Prop :=
  List.Forall₂ (fun F e => e.1 = F.Name ∧ (F.IsExported = false → e.2 = zeroValue F.Kind))
    fields rec

/-- The parser and the seeds left after `k` successive calls of `Read`. -/
def afterReads (fl : FloatLib) (T : TypeParam) : Nat → parser → List Nat → parser × List Nat
  | 0, p, seeds => (p, seeds)
  | k + 1, p, seeds => afterReads fl T k (parser.Read fl T p (seeds.headD 0)).2 seeds.tail

/-- What the call of `Read` number `k` (counting from 0) returns. -/
def nthRead (fl : FloatLib) (T : TypeParam) (k : Nat) (p : parser) (seeds : List Nat) :
    Outcome Record :=
  (parser.Read fl T (afterReads fl T k p seeds).1 ((afterReads fl T k p seeds).2.headD 0)).1

/-! # Theorems -/

/-! ## Lemmas: maps -/

theorem GoMap.get?_insert (m : GoMap) (k : String) (v : Nat) (key : String) :
    (GoMap.insert m k v).get? key = if k = key then some v else m.get? key := by
  induction m with
  | nil => simp [GoMap.insert, GoMap.get?]
  | cons e rest ih =>
    obtain ⟨k1, v1⟩ := e
    by_cases h1 : k1 = k
    · subst h1
      by_cases h2 : k1 = key <;> simp [GoMap.insert, GoMap.get?, h2]
    · by_cases h2 : k1 = key
      · subst h2
        have h3 : ¬ k = k1 := fun h => h1 h.symm
        simp [GoMap.insert, GoMap.get?, h1, h3]
      · simp [GoMap.insert, GoMap.get?, h1, h2, ih]

theorem GoMap.contains_iff (m : GoMap) (k : String) :
    m.contains k = true ↔ k ∈ m.map Prod.fst := by
  induction m with
  | nil => simp [GoMap.contains, GoMap.get?]
  | cons e rest ih =>
    obtain ⟨k1, v1⟩ := e
    by_cases h : k1 = k
    · simp [GoMap.contains, GoMap.get?, h]
    · have h2 : ¬ k = k1 := fun h3 => h h3.symm
      simp only [GoMap.contains] at ih
      simp [GoMap.contains, GoMap.get?, h, h2, ih]

theorem GoMap.keys_insert (m : GoMap) (k : String) (v : Nat) :
    (GoMap.insert m k v).map Prod.fst =
      if k ∈ m.map Prod.fst then m.map Prod.fst else m.map Prod.fst ++ [k] := by
  induction m with
  | nil => simp [GoMap.insert]
  | cons e rest ih =>
    obtain ⟨k1, v1⟩ := e
    by_cases h : k1 = k
    · simp [GoMap.insert, h]
    · have h2 : ¬ k = k1 := fun h3 => h h3.symm
      simp only [GoMap.insert, h, if_false, List.map_cons, ih, List.mem_cons, h2, false_or]
      split <;> simp

theorem GoMap.insert_of_not_mem (m : GoMap) (k : String) (v : Nat)
    (h : k ∉ m.map Prod.fst) : GoMap.insert m k v = m ++ [(k, v)] := by
  induction m with
  | nil => simp [GoMap.insert]
  | cons e rest ih =>
    obtain ⟨k1, v1⟩ := e
    simp only [List.map_cons, List.mem_cons, not_or] at h
    have h2 : ¬ k1 = k := fun h3 => h.1 h3.symm
    simp [GoMap.insert, h2, ih h.2]

theorem GoMap.get?_eq_none_iff (m : GoMap) (k : String) :
    m.get? k = none ↔ k ∉ m.map Prod.fst := by
  rw [← GoMap.contains_iff]
  simp [GoMap.contains]

/-! ## Lemmas: the inner loop of mapHeader -/

theorem firstMatch_eq_none (name : String) (hs : List String) (i : Nat) :
    firstMatch name hs i = none ↔ name ∉ hs := by
  induction hs generalizing i with
  | nil => simp [firstMatch]
  | cons h rest ih =>
    by_cases h1 : name = h
    · simp [firstMatch, h1]
    · simp [firstMatch, h1, ih]

theorem firstMatch_eq_some (name : String) (hs : List String) (i j : Nat)
    (h : firstMatch name hs i = some j) : j = i + hs.indexOf name ∧ name ∈ hs := by
  induction hs generalizing i with
  | nil => simp [firstMatch] at h
  | cons h0 rest ih =>
    by_cases h1 : name = h0
    · subst h1
      simp [firstMatch] at h
      simp [h]
    · simp only [firstMatch, h1, if_false] at h
      obtain ⟨h2, h3⟩ := ih (i + 1) h
      have h4 : ¬ h0 = name := fun h5 => h1 h5.symm
      refine ⟨?_, List.mem_cons_of_mem _ h3⟩
      rw [List.indexOf_cons_ne _ h4, h2]
      omega

theorem firstMatch_of_mem (name : String) (hs : List String) (h : name ∈ hs) :
    firstMatch name hs 0 = some (hs.indexOf name) := by
  cases h1 : firstMatch name hs 0 with
  | none => exact absurd h ((firstMatch_eq_none name hs 0).1 h1)
  | some j =>
    have := (firstMatch_eq_some name hs 0 j h1).1
    simp [this]

/-! ## Lemmas: the two loops of mapHeader -/

/-- The map after one pass of the field loop. -/
theorem fieldLoop_cons (header : List String) (f : StructField) (fs : List StructField)
    (found : GoMap) (missing : List String) :
    fieldLoop header (f :: fs) found missing =
      fieldLoop header fs
        (match firstMatch f.Name header 0 with
          | some i => found.insert f.Name i
          | none => found)
        (if (match firstMatch f.Name header 0 with
              | some i => found.insert f.Name i
              | none => found).contains f.Name
          then missing else missing ++ [f.Name]) := rfl

theorem fieldLoop_missing (header : List String) (fs : List StructField) (found : GoMap)
    (missing : List String) (hsub : ∀ k ∈ found.map Prod.fst, k ∈ header) :
    (fieldLoop header fs found missing).2 =
      missing ++ (fs.map (·.Name)).filter (fun n => decide (n ∉ header)) := by
  induction fs generalizing found missing with
  | nil => simp [fieldLoop]
  | cons f fs ih =>
    rw [fieldLoop_cons]
    by_cases hm : f.Name ∈ header
    · rw [firstMatch_of_mem _ _ hm]
      have hc : (found.insert f.Name (header.indexOf f.Name)).contains f.Name = true := by
        simp [GoMap.contains, GoMap.get?_insert]
      simp only [hc, if_true]
      rw [ih]
      · simp [hm]
      · intro k hk
        rw [GoMap.keys_insert] at hk
        split at hk
        · exact hsub k hk
        · rcases List.mem_append.1 hk with h | h
          · exact hsub k h
          · simp at h; subst h; exact hm
    · rw [(firstMatch_eq_none _ _ 0).2 hm]
      have hc : found.contains f.Name = false := by
        cases h : found.contains f.Name with
        | false => rfl
        | true => exact absurd (hsub _ ((GoMap.contains_iff _ _).1 h)) hm
      simp only [hc]
      rw [ih _ _ hsub]
      simp [hm]

theorem fieldLoop_keys (header : List String) (fs : List StructField) (found : GoMap)
    (missing : List String) (k : String) :
    k ∈ (fieldLoop header fs found missing).1.map Prod.fst ↔
      k ∈ found.map Prod.fst ∨ (k ∈ fs.map (·.Name) ∧ k ∈ header) := by
  induction fs generalizing found missing with
  | nil => simp [fieldLoop]
  | cons f fs ih =>
    rw [fieldLoop_cons, ih]
    by_cases hm : f.Name ∈ header
    · rw [firstMatch_of_mem _ _ hm]
      simp only [GoMap.keys_insert]
      split
      · rename_i hin
        constructor
        · rintro (h | ⟨h1, h2⟩)
          · exact Or.inl h
          · exact Or.inr ⟨by simp [List.mem_map] at h1 ⊢; exact Or.inr h1, h2⟩
        · rintro (h | ⟨h1, h2⟩)
          · exact Or.inl h
          · simp only [List.map_cons, List.mem_cons] at h1
            rcases h1 with h1 | h1
            · subst h1; exact Or.inl hin
            · exact Or.inr ⟨h1, h2⟩
      · constructor
        · rintro (h | ⟨h1, h2⟩)
          · rcases List.mem_append.1 h with h | h
            · exact Or.inl h
            · simp at h; subst h; exact Or.inr ⟨by simp, hm⟩
          · exact Or.inr ⟨by simp [List.mem_map] at h1 ⊢; exact Or.inr h1, h2⟩
        · rintro (h | ⟨h1, h2⟩)
          · exact Or.inl (List.mem_append_left _ h)
          · simp only [List.map_cons, List.mem_cons] at h1
            rcases h1 with h1 | h1
            · subst h1; exact Or.inl (List.mem_append_right _ (by simp))
            · exact Or.inr ⟨h1, h2⟩
    · rw [(firstMatch_eq_none _ _ 0).2 hm]
      constructor
      · rintro (h | ⟨h1, h2⟩)
        · exact Or.inl h
        · exact Or.inr ⟨by simp [List.mem_map] at h1 ⊢; exact Or.inr h1, h2⟩
      · rintro (h | ⟨h1, h2⟩)
        · exact Or.inl h
        · simp only [List.map_cons, List.mem_cons] at h1
          rcases h1 with h1 | h1
          · subst h1; exact absurd h2 hm
          · exact Or.inr ⟨h1, h2⟩

theorem fieldLoop_nodup (header : List String) (fs : List StructField) (found : GoMap)
    (missing : List String) (hnd : (found.map Prod.fst).Nodup) :
    ((fieldLoop header fs found missing).1.map Prod.fst).Nodup := by
  induction fs generalizing found missing with
  | nil => simpa [fieldLoop] using hnd
  | cons f fs ih =>
    rw [fieldLoop_cons]
    apply ih
    cases h : firstMatch f.Name header 0 with
    | none => exact hnd
    | some i =>
      simp only [GoMap.keys_insert]
      split
      · exact hnd
      · rename_i hin
        exact List.Nodup.append hnd (List.nodup_singleton _) (by simpa using hin)

theorem fieldLoop_get? (header : List String) (fs : List StructField) (found : GoMap)
    (missing : List String) (k : String) :
    (fieldLoop header fs found missing).1.get? k =
      if k ∈ fs.map (·.Name) ∧ k ∈ header then some (header.indexOf k) else found.get? k := by
  induction fs generalizing found missing with
  | nil => simp [fieldLoop]
  | cons f fs ih =>
    rw [fieldLoop_cons, ih]
    by_cases hk : k ∈ fs.map (·.Name) ∧ k ∈ header
    · have : k ∈ (f :: fs).map (·.Name) ∧ k ∈ header :=
        ⟨by simp only [List.map_cons]; exact List.mem_cons_of_mem _ hk.1, hk.2⟩
      rw [if_pos hk, if_pos this]
    · rw [if_neg hk]
      by_cases hf : f.Name = k
      · subst hf
        by_cases hm : f.Name ∈ header
        · rw [firstMatch_of_mem _ _ hm, GoMap.get?_insert]
          simp [hm]
        · rw [(firstMatch_eq_none _ _ 0).2 hm]
          simp [hm]
      · have hneg : ¬ (k ∈ (f :: fs).map (·.Name) ∧ k ∈ header) := by
          rintro ⟨h1, h2⟩
          simp only [List.map_cons, List.mem_cons] at h1
          rcases h1 with h1 | h1
          · exact hf h1.symm
          · exact hk ⟨h1, h2⟩
        rw [if_neg hneg]
        cases h : firstMatch f.Name header 0 with
        | none => rfl
        | some i => simp [GoMap.get?_insert, hf]

theorem fieldLoop_exact (header : List String) (fs : List StructField) (found : GoMap)
    (missing : List String) (hnd : (fs.map (·.Name)).Nodup)
    (hfresh : ∀ n ∈ fs.map (·.Name), n ∉ found.map Prod.fst)
    (hall : ∀ n ∈ fs.map (·.Name), n ∈ header) :
    (fieldLoop header fs found missing).1 =
      found ++ fs.map (fun f => (f.Name, header.indexOf f.Name)) := by
  induction fs generalizing found missing with
  | nil => simp [fieldLoop]
  | cons f fs ih =>
    rw [fieldLoop_cons]
    simp only [List.map_cons, List.nodup_cons] at hnd
    have hm : f.Name ∈ header := hall _ (by simp)
    have hf : f.Name ∉ found.map Prod.fst := hfresh _ (by simp)
    rw [firstMatch_of_mem _ _ hm]
    simp only [GoMap.insert_of_not_mem _ _ _ hf]
    rw [ih _ _ hnd.2]
    · simp
    · intro n hn hmem
      simp only [List.map_append, List.map_cons, List.map_nil, List.mem_append,
        List.mem_singleton] at hmem
      rcases hmem with h | h
      · exact hfresh n (by simp only [List.map_cons]; exact List.mem_cons_of_mem _ hn) h
      · subst h; exact hnd.1 hn
    · intro n hn
      exact hall n (by simp only [List.map_cons]; exact List.mem_cons_of_mem _ hn)

theorem headerLoop_eq (found : GoMap) (hs : List String) (missing : List String) :
    headerLoop found hs missing = missing ++ hs.filter (fun h => !found.contains h) := by
  induction hs generalizing missing with
  | nil => simp [headerLoop]
  | cons h hs ih =>
    simp only [headerLoop, ih]
    cases hc : found.contains h <;> simp [hc]

/-! ## The header binder -/

theorem mapHeader_eq (fields : List StructField) (header : List String) :
    mapHeader fields header =
      if (unmatchedNames fields header).length > 0 ∨
          (fieldLoop header fields [] []).1.length ≠ fields.length then
        .err (.errorf (missingMessage (unmatchedNames fields header)))
      else .ok (fieldLoop header fields [] []).1 := by
  have h1 : (fieldLoop header fields [] []).2 =
      (fields.map (·.Name)).filter (fun n => decide (n ∉ header)) := by
    rw [fieldLoop_missing header fields [] [] (by simp)]
    simp
  have h2 : header.filter (fun h => !(fieldLoop header fields [] []).1.contains h) =
      header.filter (fun h => decide (h ∉ fields.map (·.Name))) := by
    apply List.filter_congr
    intro h hh
    have := fieldLoop_keys header fields [] [] h
    simp only [List.map_nil, List.not_mem_nil, false_or] at this
    cases hc : (fieldLoop header fields [] []).1.contains h with
    | true =>
      have := (this.1 ((GoMap.contains_iff _ _).1 hc)).1
      simp [this]
    | false =>
      have hn : h ∉ fields.map (·.Name) := by
        intro hmem
        have := (GoMap.contains_iff _ _).2 (this.2 ⟨hmem, hh⟩)
        rw [hc] at this
        exact Bool.noConfusion this
      simp [hn]
  have h3 : headerLoop (fieldLoop header fields [] []).1 header (fieldLoop header fields [] []).2
      = unmatchedNames fields header := by
    rw [headerLoop_eq, h1, h2]
    rfl
  unfold mapHeader
  simp only [h3]

theorem unmatchedNames_eq_nil (fields : List StructField) (header : List String) :
    unmatchedNames fields header = [] ↔
      (∀ f ∈ fields, f.Name ∈ header) ∧ (∀ h ∈ header, h ∈ fields.map (·.Name)) := by
  simp [unmatchedNames, List.filter_eq_nil_iff]

theorem fieldLoop_all_matched (fields : List StructField) (header : List String)
    (hnd : (fields.map (·.Name)).Nodup) (hall : ∀ f ∈ fields, f.Name ∈ header) :
    (fieldLoop header fields [] []).1 =
      fields.map (fun f => (f.Name, header.indexOf f.Name)) := by
  rw [fieldLoop_exact header fields [] [] hnd (by simp)]
  · simp
  · intro n hn
    obtain ⟨f, hf, rfl⟩ := List.mem_map.1 hn
    exact hall f hf

/-- A binding exists only when the field names are pairwise distinct. -/
theorem nodup_of_length_eq (fields : List StructField) (header : List String)
    (hlen : (fieldLoop header fields [] []).1.length = fields.length) :
    (fields.map (·.Name)).Nodup := by
  have hnd := fieldLoop_nodup header fields [] [] (by simp)
  have hsub : (fieldLoop header fields [] []).1.map Prod.fst ⊆ fields.map (·.Name) := by
    intro k hk
    have := (fieldLoop_keys header fields [] [] k).1 hk
    simp only [List.map_nil, List.not_mem_nil, false_or] at this
    exact this.1
  have hsp := List.subperm_of_subset hnd hsub
  have hperm := hsp.perm_of_length_le (by simp [hlen])
  exact hperm.nodup_iff.1 hnd

theorem mapHeader_ok_iff (fields : List StructField) (header : List String) (m : GoMap) :
    mapHeader fields header = .ok m ↔
      (fields.map (·.Name)).Nodup ∧ (∀ f ∈ fields, f.Name ∈ header) ∧
        (∀ h ∈ header, h ∈ fields.map (·.Name)) ∧
        m = fields.map (fun f => (f.Name, header.indexOf f.Name)) := by
  rw [mapHeader_eq]
  constructor
  · intro h
    split at h
    · exact Outcome.noConfusion h
    · rename_i hc
      simp only [not_or, not_not, gt_iff_lt, List.length_pos, ne_eq] at hc
      obtain ⟨hc1, hc2⟩ := hc
      obtain ⟨ha, hb⟩ := (unmatchedNames_eq_nil fields header).1 hc1
      have hnd := nodup_of_length_eq fields header hc2
      refine ⟨hnd, ha, hb, ?_⟩
      rw [← fieldLoop_all_matched fields header hnd ha]
      injection h with h
      exact h.symm
  · rintro ⟨hnd, ha, hb, rfl⟩
    have hu := (unmatchedNames_eq_nil fields header).2 ⟨ha, hb⟩
    rw [fieldLoop_all_matched fields header hnd ha, hu]
    simp

theorem map_indexOf_self (header : List String) (hnd : header.Nodup) :
    header.map (fun h => header.indexOf h) = List.range header.length := by
  apply List.ext_getElem
  · simp
  · intro i h1 h2
    simp only [List.getElem_map, List.getElem_range]
    exact List.indexOf_getElem hnd i (by simpa using h1)

theorem missingMessage_one (F : String) : missingMessage [F] = "missing header: " ++ F := by
  simp [missingMessage, String.intercalate, String.intercalate.go]

theorem missingMessage_two (A B : String) :
    missingMessage [A, B] = "missing headers: " ++ A ++ ", " ++ B := by
  simp [missingMessage, String.intercalate, String.intercalate.go]
  rfl

/-- C2: for fields with pairwise distinct names, `mapHeader` returns an error exactly when
some field name does not occur among the headers or some header is not the name of a field,
and in every other case it returns a binding. -/
theorem mapHeader_error_iff (fields : List StructField) (header : List String)
    (hnd : (fields.map (·.Name)).Nodup) :
    ((∃ e, mapHeader fields header = .err e) ↔
      ((∃ f ∈ fields, f.Name ∉ header) ∨ (∃ h ∈ header, h ∉ fields.map (·.Name)))) ∧
    (¬ ((∃ f ∈ fields, f.Name ∉ header) ∨ (∃ h ∈ header, h ∉ fields.map (·.Name))) →
      ∃ m, mapHeader fields header = .ok m) := by
  have key : ¬ ((∃ f ∈ fields, f.Name ∉ header) ∨ (∃ h ∈ header, h ∉ fields.map (·.Name))) →
      ∃ m, mapHeader fields header = .ok m := by
    intro hno
    simp only [not_or, not_exists, not_and, not_not] at hno
    exact ⟨_, (mapHeader_ok_iff fields header _).2 ⟨hnd, hno.1, hno.2, rfl⟩⟩
  refine ⟨⟨?_, ?_⟩, key⟩
  · rintro ⟨e, he⟩
    by_contra hno
    obtain ⟨m, hm⟩ := key hno
    rw [he] at hm
    exact Outcome.noConfusion hm
  · intro hc
    cases hm : mapHeader fields header with
    | err e => exact ⟨e, rfl⟩
    | panic q =>
      rw [mapHeader_eq] at hm
      split at hm <;> exact Outcome.noConfusion hm
    | ok m =>
      obtain ⟨_, ha, hb, _⟩ := (mapHeader_ok_iff fields header m).1 hm
      rcases hc with ⟨f, hf, hn⟩ | ⟨h, hh, hn⟩
      · exact absurd (ha f hf) hn
      · exact absurd (hb h hh) hn

theorem mapHeader_error_iff_witness :
    ([fieldA, fieldB].map (·.Name)).Nodup ∧
      ((∃ e, mapHeader [fieldA, fieldB] ["B", "C"] = .err e) ↔
        ((∃ f ∈ [fieldA, fieldB], f.Name ∉ ["B", "C"]) ∨
          (∃ h ∈ ["B", "C"], h ∉ [fieldA, fieldB].map (·.Name)))) :=
  ⟨by decide, (mapHeader_error_iff [fieldA, fieldB] ["B", "C"] (by decide)).1⟩

/-- C3: when `mapHeader` fails, the message is "missing header", an "s" exactly when more
than one name is listed, ": " and the listed names joined by ", ", the listed names being the
unmatched field names in declaration order followed by the unmatched headers in header order;
one unmatched name F gives "missing header: F" and two, A and B, give
"missing headers: A, B". -/
theorem mapHeader_error_message (fields : List StructField) (header : List String) :
    (∀ e, mapHeader fields header = .err e →
      e = .errorf ("missing header" ++
        (if (unmatchedNames fields header).length > 1 then "s" else "") ++ ": " ++
        ", ".intercalate (unmatchedNames fields header))) ∧
    (∀ F, unmatchedNames fields header = [F] →
      mapHeader fields header = .err (.errorf ("missing header: " ++ F))) ∧
    (∀ A B, unmatchedNames fields header = [A, B] →
      mapHeader fields header = .err (.errorf ("missing headers: " ++ A ++ ", " ++ B))) := by
  refine ⟨?_, ?_, ?_⟩
  · intro e he
    rw [mapHeader_eq] at he
    split at he
    · injection he with he
      rw [← he]
      rfl
    · exact Outcome.noConfusion he
  · intro F hF
    rw [mapHeader_eq, hF, missingMessage_one]
    simp
  · intro A B hAB
    rw [mapHeader_eq, hAB, missingMessage_two]
    simp

theorem mapHeader_error_message_witness :
    mapHeader [fieldA, fieldB] ["A"] = .err (.errorf ("missing header: " ++ "B")) ∧
    mapHeader [fieldA, fieldB] ["A", "B", "C"] = .err (.errorf ("missing header: " ++ "C")) ∧
    mapHeader [fieldA, fieldB] ["A", "b"] =
      .err (.errorf ("missing headers: " ++ "B" ++ ", " ++ "b")) :=
  ⟨(mapHeader_error_message [fieldA, fieldB] ["A"]).2.1 "B" (by decide),
   (mapHeader_error_message [fieldA, fieldB] ["A", "B", "C"]).2.1 "C" (by decide),
   (mapHeader_error_message [fieldA, fieldB] ["A", "b"]).2.2 "B" "b" (by decide)⟩

/-- C4, counterexample: a header that repeats a name is accepted; the binding has one entry,
the header two columns, and column 1 is bound to no field. -/
theorem mapHeader_duplicate_header :
    mapHeader [fieldA] ["A", "A"] = .ok [("A", 0)] ∧
      ¬ (["A", "A"].length = [fieldA].length) ∧
      1 ∉ ([("A", 0)] : GoMap).map Prod.snd := by
  decide

/-- C4, amended: when `mapHeader` succeeds the binding has exactly one entry per field, in
declaration order, distinct fields are bound to distinct columns, every bound column is in
range and carries the field name, and every header string is the name of a bound field; when
moreover no header string is repeated, the bound columns are exactly the positions
`0 .. len(header) - 1` and the header has as many columns as there are fields. -/
theorem mapHeader_binding (fields : List StructField) (header : List String) (m : GoMap)
    (h : mapHeader fields header = .ok m) :
    m.map Prod.fst = fields.map (·.Name) ∧ (m.map Prod.fst).Nodup ∧
    (m.map Prod.snd).Nodup ∧
    (∀ e ∈ m, header.get? e.2 = some e.1) ∧
    (∀ s ∈ header, s ∈ m.map Prod.fst) ∧
    (header.Nodup → header.length = fields.length ∧
      (m.map Prod.snd).Perm (List.range header.length)) := by
  obtain ⟨hnd, ha, hb, rfl⟩ := (mapHeader_ok_iff fields header m).1 h
  have hfst : (fields.map (fun f => (f.Name, header.indexOf f.Name))).map Prod.fst =
      fields.map (·.Name) := by
    simp [List.map_map, Function.comp_def]
  have hsnd : (fields.map (fun f => (f.Name, header.indexOf f.Name))).map Prod.snd =
      (fields.map (·.Name)).map (fun n => header.indexOf n) := by
    simp [List.map_map, Function.comp_def]
  have hmem : ∀ n ∈ fields.map (·.Name), n ∈ header := by
    intro n hn
    obtain ⟨f, hf, rfl⟩ := List.mem_map.1 hn
    exact ha f hf
  refine ⟨hfst, by rw [hfst]; exact hnd, ?_, ?_, ?_, ?_⟩
  · rw [hsnd]
    exact List.Nodup.map_on
      (fun x hx y hy hxy => (List.indexOf_inj (hmem x hx) (hmem y hy)).1 hxy) hnd
  · intro e he
    obtain ⟨f, hf, rfl⟩ := List.mem_map.1 he
    exact List.indexOf_get? (ha f hf)
  · intro s hs
    rw [hfst]
    exact hb s hs
  · intro hhd
    have hperm : (fields.map (·.Name)).Perm header :=
      (List.perm_ext_iff_of_nodup hnd hhd).2 (fun a => ⟨hmem a, hb a⟩)
    refine ⟨by simpa using hperm.length_eq.symm, ?_⟩
    rw [hsnd, ← map_indexOf_self header hhd]
    exact hperm.map _

theorem mapHeader_binding_witness :
    mapHeader [fieldA, fieldB] ["B", "A"] = .ok [("A", 1), ("B", 0)] ∧
      ([("A", 1), ("B", 0)] : GoMap).map Prod.fst = [fieldA, fieldB].map (·.Name) :=
  ⟨by decide, (mapHeader_binding [fieldA, fieldB] ["B", "A"] [("A", 1), ("B", 0)]
    (by decide)).1⟩

/-! ## Construction -/

theorem exported_foldl (allFields acc : List StructField) :
    allFields.foldl (fun fields field =>
      if field.IsExported then fields ++ [field] else fields) acc =
      acc ++ allFields.filter (·.IsExported) := by
  induction allFields generalizing acc with
  | nil => simp
  | cons f fs ih =>
    simp only [List.foldl_cons, ih, List.filter_cons]
    cases f.IsExported <;> simp

theorem getFields_struct (tt : RType) (h : tt.Kind = Kind.Struct) :
    getFields (some tt) =
      if tt.VisibleFields = [] then .err .errNoVisibleFields
      else if tt.VisibleFields.filter (·.IsExported) = [] then .err .errNoExportedFields
      else .ok (tt.VisibleFields.filter (·.IsExported)) := by
  simp only [getFields, h, ne_eq, not_true_eq_false, if_false, exported_foldl, List.nil_append,
    List.length_eq_zero]

/-- C10: construction fails with `errInvalidType` when the type is not a struct, with
`errNoVisibleFields` when it is a struct without fields and with `errNoExportedFields` when it
has fields of which none is exported; this holds for every reader (the nil reader included),
so it is decided before any input is read, and `Parse` returns the same error and no result. -/
theorem construction_type_errors (fl : FloatLib) (T : TypeParam) (reader : IoReader)
    (opts : List ParseOption) (seeds : List Nat) :
    ((T = none ∨ ∃ tt, T = some tt ∧ tt.Kind ≠ Kind.Struct) →
      NewParser T reader opts = .err .errInvalidType ∧
      Parse fl T reader opts seeds = .err .errInvalidType) ∧
    (∀ tt, T = some tt → tt.Kind = Kind.Struct → tt.VisibleFields = [] →
      NewParser T reader opts = .err .errNoVisibleFields ∧
      Parse fl T reader opts seeds = .err .errNoVisibleFields) ∧
    (∀ tt, T = some tt → tt.Kind = Kind.Struct → tt.VisibleFields ≠ [] →
      (∀ f ∈ tt.VisibleFields, f.IsExported = false) →
      NewParser T reader opts = .err .errNoExportedFields ∧
      Parse fl T reader opts seeds = .err .errNoExportedFields) := by
  refine ⟨?_, ?_, ?_⟩
  · rintro (rfl | ⟨tt, rfl, hk⟩)
    · simp [Parse, NewParser, getFields]
    · simp [Parse, NewParser, getFields, hk]
  · rintro tt rfl hk hv
    simp [Parse, NewParser, getFields_struct tt hk, hv]
  · rintro tt rfl hk hv hex
    have : tt.VisibleFields.filter (·.IsExported) = [] := by
      rw [List.filter_eq_nil_iff]
      intro f hf
      simp [hex f hf]
    simp [Parse, NewParser, getFields_struct tt hk, hv, this]

theorem construction_type_errors_witness :
    Parse noFloats ifaceType none [] [] = .err .errInvalidType ∧
    Parse noFloats noFields none [] [] = .err .errNoVisibleFields ∧
    Parse noFloats noExportedFields (some [.failure "file already closed"]) [] [] =
      .err .errNoExportedFields :=
  ⟨((construction_type_errors noFloats ifaceType none [] []).1 (Or.inl rfl)).2,
   ((construction_type_errors noFloats noFields none [] []).2.1 _ rfl rfl rfl).2,
   ((construction_type_errors noFloats noExportedFields
      (some [.failure "file already closed"]) [] []).2.2 _ rfl rfl (by decide) (by decide)).2⟩

/-! ## Two places where the code departs from the properties -/

/-- C6: the mark U+FEFF is not stripped. With fields `Foo` and `Bar`, the header row
whose cells are U+FEFF followed by `foo`, and `bar`, is rejected, the first transformed
header being U+FEFF followed by `Foo`, whereas the same
input without the mark is parsed. -/
theorem byte_order_mark_not_stripped :
    Parse noFloats fooBar (some [.record ["\uFEFFfoo", "bar"], .record ["baz", "foo"]]) [] [] =
      .err (.errorf "missing headers: Foo, \uFEFFFoo") ∧
    Parse noFloats fooBar (some [.record ["foo", "bar"], .record ["baz", "foo"]]) [] [] =
      .ok [[("Foo", .string "baz"), ("Bar", .string "foo")]] := by
  decide

/-- C7: integers are parsed at 64 bits whatever the width of the field. The cell `300` is
not an 8-bit integer, yet `Read` on an `int8` field stores `44` and on a `uint8` field stores
`44`, without an error. -/
theorem narrow_integer_truncated :
    ParseInt "300" 8 = none ∧ ParseUint "300" 8 = none ∧
    Parse noFloats narrowInt (some [.record ["a"], .record ["300"]]) [] [] =
      .ok [[("A", .int 44)]] ∧
    Parse noFloats narrowUint (some [.record ["a"], .record ["300"]]) [] [] =
      .ok [[("A", .uint 44)]] := by
  decide

/-! ## The row decoder -/

theorem FieldByName_name (fields : List StructField) (f : String) (field : StructField)
    (h : FieldByName fields f = some field) : field.Name = f ∧ field ∈ fields := by
  induction fields with
  | nil => simp [FieldByName] at h
  | cons g rest ih =>
    by_cases hg : g.Name = f
    · simp only [FieldByName, hg, if_true, Option.some.injEq] at h
      subst h
      exact ⟨hg, by simp⟩
    · simp only [FieldByName, hg, if_false] at h
      exact ⟨(ih h).1, List.mem_cons_of_mem _ (ih h).2⟩

theorem decodeField_eq (fl : FloatLib) (tt : RType) (hk : tt.Kind = Kind.Struct)
    (row : List String) (obj : Record) (f : String) (i : Nat) :
    decodeField fl (some tt) row obj f i =
      match cellOutcome fl tt row f i with
      | .ok v => .ok (obj.set f v)
      | .err e => .err e
      | .panic q => .panic q := by
  unfold decodeField cellOutcome
  simp only [hk, ne_eq, not_true_eq_false, if_false]
  cases hf : FieldByName tt.VisibleFields f with
  | none => rfl
  | some field =>
    have hn := (FieldByName_name _ _ _ hf).1
    simp only []
    cases hkind : field.Kind <;> simp only [supportedKind, if_true] <;>
      (try rfl) <;>
      (cases hrow : row.get? i with
        | none => rfl
        | some cell =>
          simp only [parseCell, setField, hn]
          first
            | (cases ParseInt cell 64 <;> simp only [] <;>
                cases field.IsExported <;> rfl)
            | (cases ParseUint cell 64 <;> simp only [] <;>
                cases field.IsExported <;> rfl)
            | (cases ParseBool cell <;> simp only [] <;>
                cases field.IsExported <;> rfl)
            | (cases fl.ParseFloat cell <;> simp only [] <;>
                cases field.IsExported <;> rfl)
            | (cases field.IsExported <;> rfl))

/-- The value a successful pass stores (any value when the pass fails). -/
theorem decodeRow_ok (fl : FloatLib) (tt : RType) (hk : tt.Kind = Kind.Struct)
    (row : List String) (val : String × Nat → Value) (es : List (String × Nat)) (obj : Record)
    (h : ∀ e ∈ es, cellOutcome fl tt row e.1 e.2 = .ok (val e)) :
    decodeRow fl (some tt) row es obj = .ok (es.foldl (fun o e => o.set e.1 (val e)) obj) := by
  induction es generalizing obj with
  | nil => rfl
  | cons e rest ih =>
    obtain ⟨f, i⟩ := e
    have h1 := h (f, i) (by simp)
    simp only [decodeRow, decodeField_eq fl tt hk, h1, List.foldl_cons]
    exact ih _ (fun e he => h e (List.mem_cons_of_mem _ he))

theorem decodeRow_err (fl : FloatLib) (tt : RType) (hk : tt.Kind = Kind.Struct)
    (row : List String) (es : List (String × Nat)) (obj : Record) (e0 : String × Nat)
    (x : Error) (hmem : e0 ∈ es) (hx : cellOutcome fl tt row e0.1 e0.2 = .err x)
    (hothers : ∀ e ∈ es, e ≠ e0 → ∃ v, cellOutcome fl tt row e.1 e.2 = .ok v) :
    decodeRow fl (some tt) row es obj = .err x := by
  induction es generalizing obj with
  | nil => simp at hmem
  | cons e rest ih =>
    obtain ⟨f, i⟩ := e
    by_cases he : (f, i) = e0
    · subst he
      simp only [decodeRow, decodeField_eq fl tt hk, hx]
    · obtain ⟨v, hv⟩ := hothers (f, i) (by simp) he
      simp only [decodeRow, decodeField_eq fl tt hk, hv]
      apply ih
      · rcases List.mem_cons.1 hmem with h | h
        · exact absurd h.symm he
        · exact h
      · exact fun e h1 h2 => hothers e (List.mem_cons_of_mem _ h1) h2

/-- A pass that does not succeed makes the whole row fail, in whatever order. -/
theorem decodeRow_fails (fl : FloatLib) (tt : RType) (hk : tt.Kind = Kind.Struct)
    (row : List String) (es : List (String × Nat)) (obj : Record) (e0 : String × Nat)
    (hmem : e0 ∈ es) (hx : (cellOutcome fl tt row e0.1 e0.2).records = none) :
    (decodeRow fl (some tt) row es obj).records = none := by
  induction es generalizing obj with
  | nil => simp at hmem
  | cons e rest ih =>
    obtain ⟨f, i⟩ := e
    simp only [decodeRow, decodeField_eq fl tt hk]
    cases hc : cellOutcome fl tt row f i with
    | err x => rfl
    | panic q => rfl
    | ok v =>
      simp only []
      apply ih
      rcases List.mem_cons.1 hmem with h | h
      · subst h
        rw [hc] at hx
        simp [Outcome.records] at hx
      · exact h

/-! ## Records -/

theorem Record.get_set (r : Record) (n : String) (v : Value) (k : String) :
    (r.set n v).get k = if k = n then (r.get n).map (fun _ => v) else r.get k := by
  induction r with
  | nil => simp [Record.set, Record.get]
  | cons e rest ih =>
    obtain ⟨m, w⟩ := e
    by_cases h1 : m = n
    · subst h1
      by_cases h2 : k = m
      · subst h2; simp [Record.set, Record.get]
      · have h3 : ¬ m = k := fun h => h2 h.symm
        simp [Record.set, Record.get, h2, h3]
    · by_cases h2 : k = n
      · subst h2
        simp [Record.set, Record.get, h1, ih]
      · by_cases h3 : m = k
        · simp [Record.set, Record.get, h1, h2, h3]
        · simp [Record.set, Record.get, h1, h2, h3, ih]

theorem Record.set_comm (r : Record) (a b : String) (v w : Value) (h : a ≠ b) :
    (r.set a v).set b w = (r.set b w).set a v := by
  induction r with
  | nil => rfl
  | cons e rest ih =>
    obtain ⟨m, u⟩ := e
    by_cases h1 : m = a
    · subst h1
      simp [Record.set, h]
    · by_cases h2 : m = b
      · subst h2
        simp [Record.set, h1]
      · simp [Record.set, h1, h2, ih]

theorem foldl_set_get (val : String × Nat → Value) (es : List (String × Nat))
    (hnd : (es.map Prod.fst).Nodup) (obj : Record) (e : String × Nat) (he : e ∈ es) :
    (es.foldl (fun o e => o.set e.1 (val e)) obj).get e.1 =
      (obj.get e.1).map (fun _ => val e) := by
  induction es generalizing obj with
  | nil => simp at he
  | cons e1 rest ih =>
    simp only [List.map_cons, List.nodup_cons] at hnd
    simp only [List.foldl_cons]
    rcases List.mem_cons.1 he with h | h
    · subst h
      have hfr : ∀ (l : List (String × Nat)) (o : Record), e.1 ∉ l.map Prod.fst →
          (l.foldl (fun o e => o.set e.1 (val e)) o).get e.1 = o.get e.1 := by
        intro l
        induction l with
        | nil => intro o _; rfl
        | cons e2 l ih2 =>
          intro o hn
          simp only [List.map_cons, List.mem_cons, not_or] at hn
          simp only [List.foldl_cons]
          rw [ih2 _ hn.2, Record.get_set, if_neg hn.1]
      rw [hfr rest _ hnd.1, Record.get_set, if_pos rfl]
    · rw [ih hnd.2 _ h, Record.get_set]
      have : e.1 ≠ e1.1 := by
        intro heq
        exact hnd.1 (heq ▸ List.mem_map_of_mem Prod.fst h)
      rw [if_neg this]

theorem foldl_set_get_other (val : String × Nat → Value) (es : List (String × Nat))
    (obj : Record) (k : String) (hk : k ∉ es.map Prod.fst) :
    (es.foldl (fun o e => o.set e.1 (val e)) obj).get k = obj.get k := by
  induction es generalizing obj with
  | nil => rfl
  | cons e rest ih =>
    simp only [List.map_cons, List.mem_cons, not_or] at hk
    simp only [List.foldl_cons]
    rw [ih _ hk.2, Record.get_set, if_neg hk.1]

theorem foldl_set_perm (val : String × Nat → Value) (es es1 : List (String × Nat))
    (hnd : (es.map Prod.fst).Nodup) (hp : es.Perm es1) (obj : Record) :
    es.foldl (fun o e => o.set e.1 (val e)) obj =
      es1.foldl (fun o e => o.set e.1 (val e)) obj := by
  apply List.Perm.foldl_eq' hp
  intro x hx y hy z
  by_cases hxy : x.1 = y.1
  · have : x = y := by
      have hinj := List.inj_on_of_nodup_map hnd
      exact hinj hx hy hxy
    subst this
    rfl
  · exact Record.set_comm z x.1 y.1 (val x) (val y) hxy

/-! ## Map iteration -/

theorem perm_get_eraseIdx {α : Type} (m : List α) (i : Nat) (a : α) (h : m.get? i = some a) :
    (a :: m.eraseIdx i).Perm m := by
  induction m generalizing i with
  | nil => simp at h
  | cons b rest ih =>
    cases i with
    | zero =>
      simp at h
      subst h
      simp
    | succ j =>
      simp only [List.get?_cons_succ] at h
      simp only [List.eraseIdx_cons_succ]
      exact (List.Perm.swap b a _).trans ((ih j h).cons b)

theorem pickOrder_perm {α : Type} (n seed : Nat) (m : List α) (h : m.length = n) :
    (pickOrder n seed m).Perm m := by
  induction n generalizing seed m with
  | zero =>
    have : m = [] := List.length_eq_zero.1 h
    subst this
    simp [pickOrder]
  | succ n ih =>
    have hlt : seed % (n + 1) < m.length := by rw [h]; exact Nat.mod_lt _ (Nat.succ_pos n)
    have hget : m.get? (seed % (n + 1)) = some (m.get ⟨seed % (n + 1), hlt⟩) :=
      List.get?_eq_get hlt
    simp only [pickOrder, hget]
    have hlen : (m.eraseIdx (seed % (n + 1))).length = n := by
      rw [List.length_eraseIdx, if_pos hlt, h]
      rfl
    exact ((ih (seed / (n + 1)) _ hlen).cons _).trans (perm_get_eraseIdx m _ _ hget)

theorem rangeOrder_perm {α : Type} (seed : Nat) (m : List α) : (rangeOrder seed m).Perm m :=
  pickOrder_perm m.length seed m rfl

/-- Every enumeration of the entries is the range order of some seed. -/
theorem rangeOrder_surjective {α : Type} (m l : List α) (h : l.Perm m) :
    ∃ seed, rangeOrder seed m = l := by
  suffices hs : ∀ (n : Nat) (l m : List α), m.length = n → l.Perm m →
      ∃ seed, pickOrder n seed m = l from hs m.length l m rfl h
  intro n
  induction n with
  | zero =>
    intro l m hm hp
    have : m = [] := List.length_eq_zero.1 hm
    subst this
    exact ⟨0, by simp [pickOrder, List.Perm.eq_nil hp]⟩
  | succ n ih =>
    intro l m hm hp
    cases l with
    | nil => simp [← hp.length_eq] at hm
    | cons a l1 =>
      have ha : a ∈ m := hp.subset (by simp)
      obtain ⟨i, hi, hget⟩ := List.getElem_of_mem ha
      have hget2 : m.get? i = some a := by
        rw [List.get?_eq_getElem?, List.getElem?_eq_getElem hi, hget]
      have hlen : (m.eraseIdx i).length = n := by
        rw [List.length_eraseIdx, if_pos hi, hm]
        rfl
      have hp1 : l1.Perm (m.eraseIdx i) :=
        (List.perm_cons a).1 (hp.trans (perm_get_eraseIdx m i a hget2).symm)
      obtain ⟨s, hs⟩ := ih l1 (m.eraseIdx i) hlen hp1
      refine ⟨i + (n + 1) * s, ?_⟩
      have hi2 : i < n + 1 := hm ▸ hi
      have hmod : (i + (n + 1) * s) % (n + 1) = i := by
        rw [Nat.add_mul_mod_self_left, Nat.mod_eq_of_lt hi2]
      have hdiv : (i + (n + 1) * s) / (n + 1) = s := by
        rw [Nat.add_mul_div_left _ _ (Nat.succ_pos n), Nat.div_eq_of_lt hi2, Nat.zero_add]
      simp only [pickOrder, hmod, hdiv, hget2, hs]

/-! ## Conversions -/

theorem ParseUint_widen (s : String) (w : Nat) (v : Nat) (hw : w ≤ 64)
    (h : ParseUint s w = some v) : ParseUint s 64 = some v ∧ wrapUint w v = v := by
  unfold ParseUint at h ⊢
  cases hm : parseMagnitude s.data with
  | none => simp [hm] at h
  | some n =>
    simp only [hm] at h ⊢
    split at h
    · rename_i hlt
      injection h with h
      subst h
      have h64 : n < 2 ^ 64 := lt_of_lt_of_le hlt (Nat.pow_le_pow_right (by decide) hw)
      exact ⟨by rw [if_pos h64], Nat.mod_eq_of_lt hlt⟩
    · exact Option.noConfusion h

theorem wrapInt_of_range (w : Nat) (v : Int) (hw : 1 ≤ w) (h1 : -(2 ^ (w - 1) : Int) ≤ v)
    (h2 : v < (2 ^ (w - 1) : Int)) : wrapInt w v = v := by
  unfold wrapInt
  have hpow : (2 : Int) ^ w = 2 * 2 ^ (w - 1) := by
    have : w = (w - 1) + 1 := by omega
    conv_lhs => rw [this]
    rw [pow_succ]
    ring
  rw [Int.emod_eq_of_lt (by omega) (by rw [hpow]; omega)]
  omega

theorem ParseInt_range (s : String) (w : Nat) (v : Int) (h : ParseInt s w = some v) :
    -(2 ^ (w - 1) : Int) ≤ v ∧ v < (2 ^ (w - 1) : Int) ∧
      ∀ w1, w ≤ w1 → ParseInt s w1 = some v := by
  have hp : (0 : Int) < 2 ^ (w - 1) := by positivity
  have hmono : ∀ w1, w ≤ w1 → 2 ^ (w - 1) ≤ 2 ^ (w1 - 1) := fun w1 hw1 =>
    Nat.pow_le_pow_right (by decide) (by omega)
  unfold ParseInt at h
  split at h
  · rename_i cs hd
    cases hm : parseMagnitude cs with
    | none => simp [hm] at h
    | some n =>
      simp only [hm] at h
      split at h
      · rename_i hlt
        injection h with h
        subst h
        refine ⟨by omega, by exact_mod_cast hlt, ?_⟩
        intro w1 hw1
        have := lt_of_lt_of_le hlt (hmono w1 hw1)
        simp [ParseInt, hd, hm, this]
      · exact Option.noConfusion h
  · rename_i cs hd
    cases hm : parseMagnitude cs with
    | none => simp [hm] at h
    | some n =>
      simp only [hm] at h
      split at h
      · rename_i hle
        injection h with h
        subst h
        have hle2 : (n : Int) ≤ 2 ^ (w - 1) := by exact_mod_cast hle
        refine ⟨by omega, by omega, ?_⟩
        intro w1 hw1
        have := le_trans hle (hmono w1 hw1)
        simp [ParseInt, hd, hm, this]
      · exact Option.noConfusion h
  · rename_i cs hplus hminus
    cases hm : parseMagnitude s.data with
    | none => simp [hm] at h
    | some n =>
      simp only [hm] at h
      split at h
      · rename_i hlt
        injection h with h
        subst h
        refine ⟨by omega, by exact_mod_cast hlt, ?_⟩
        intro w1 hw1
        have := lt_of_lt_of_le hlt (hmono w1 hw1)
        unfold ParseInt
        split
        · rename_i cs1 hd1
          exact absurd hd1 (hplus cs1)
        · rename_i cs1 hd1
          exact absurd hd1 (hminus cs1)
        · simp [hm, this]
      · exact Option.noConfusion h

theorem ParseInt_widen (s : String) (w : Nat) (v : Int) (hw1 : 1 ≤ w) (hw : w ≤ 64)
    (h : ParseInt s w = some v) : ParseInt s 64 = some v ∧ wrapInt w v = v := by
  obtain ⟨h1, h2, h3⟩ := ParseInt_range s w v h
  exact ⟨h3 64 hw, wrapInt_of_range w v hw1 h1 h2⟩

/-- A cell that converts by the table is given the same value by the switch of `Read`. -/
theorem parseCell_of_convertCell (fl : FloatLib) (k : Kind) (cell : String) (v : Value)
    (h : convertCell fl k cell = some v) : parseCell fl k cell = .ok v ∧ supportedKind k = true := by
  cases k <;> simp only [convertCell, Option.map_eq_some'] at h <;>
    first
      | exact Option.noConfusion h
      | (obtain ⟨a, ha, rfl⟩ := h
         first
           | (have hb := ParseInt_widen cell _ a (by decide) (by decide) ha
              simp only [kindBits] at hb
              simp [parseCell, supportedKind, hb.1, hb.2, kindBits])
           | (have hb := ParseUint_widen cell _ a (by decide) ha
              simp only [kindBits] at hb
              simp [parseCell, supportedKind, hb.1, hb.2, kindBits])
           | simp [parseCell, supportedKind, ha])
      | (simp only [Option.some.injEq] at h
         subst h
         exact ⟨rfl, rfl⟩)

/-! ## Construction and reading -/

theorem remap_eq_map {T K : Type} (objs : List T) (fn : T → K) : remap objs fn = objs.map fn := by
  suffices h : ∀ acc : List K,
      objs.foldl (fun result obj => result ++ [fn obj]) acc = acc ++ objs.map fn by
    simpa [remap] using h []
  induction objs with
  | nil => simp
  | cons a rest ih => intro acc; simp [ih]

theorem getHeader_length (o : options) (header : List String) :
    (getHeader o header).length = header.length := by
  unfold getHeader
  split
  · simp [remap_eq_map]
  · split <;> simp [remap_eq_map]

/-- The parser that `NewParser` builds from a header record. -/
theorem NewParser_ok (tt : RType) (hdr : List String) (evs : List Event)
    (opts : List ParseOption) (p : parser)
    (h : NewParser (some tt) (some (.record hdr :: evs)) opts = .ok p) :
    tt.Kind = Kind.Struct ∧
    p.fields = tt.VisibleFields.filter (·.IsExported) ∧
    mapHeader p.fields (getHeader (getOptions opts) hdr) = .ok p.header ∧
    p.reader.FieldsPerRecord = hdr.length ∧ p.reader.input = some evs := by
  have hk : tt.Kind = Kind.Struct := by
    by_contra hk
    simp [NewParser, getFields, hk] at h
  refine ⟨hk, ?_⟩
  simp only [NewParser, getFields_struct tt hk, csvNewReader, CsvReader.Read] at h
  split at h
  · exact Outcome.noConfusion h
  · exact Outcome.noConfusion h
  · rename_i fields hf
    simp only [lt_irrefl, gt_iff_lt, if_false] at h
    split at hf
    · exact Outcome.noConfusion hf
    · split at hf
      · exact Outcome.noConfusion hf
      · injection hf with hf
        subst hf
        split at h
        · exact Outcome.noConfusion h
        · exact Outcome.noConfusion h
        · rename_i m hm
          injection h with h
          subst h
          exact ⟨rfl, hm, rfl, rfl⟩

theorem NewParser_of_mapHeader (tt : RType) (hdr : List String) (evs : List Event)
    (opts : List ParseOption) (m : GoMap) (hk : tt.Kind = Kind.Struct)
    (hne : tt.VisibleFields.filter (·.IsExported) ≠ [])
    (hm : mapHeader (tt.VisibleFields.filter (·.IsExported))
      (getHeader (getOptions opts) hdr) = .ok m) :
    NewParser (some tt) (some (.record hdr :: evs)) opts =
      .ok { opts := getOptions opts,
            reader := { FieldsPerRecord := hdr.length, input := some evs },
            fields := tt.VisibleFields.filter (·.IsExported), header := m } := by
  have hv : tt.VisibleFields ≠ [] := by
    intro h0
    rw [h0] at hne
    exact hne rfl
  simp [NewParser, getFields_struct tt hk, csvNewReader, CsvReader.Read, hv, hne, hm]

theorem Read_record (fl : FloatLib) (T : TypeParam) (p : parser) (seed : Nat)
    (row : List String) (rest : List Event)
    (hin : p.reader.input = some (.record row :: rest))
    (hn : row.length = p.reader.FieldsPerRecord) (hpos : 0 < p.reader.FieldsPerRecord) :
    parser.Read fl T p seed =
      (decodeRow fl T row (rangeOrder seed p.header) (zeroOf T),
        { p with reader := { p.reader with input := some rest } }) := by
  simp [parser.Read, CsvReader.Read, hin, hn, hpos]

theorem readAllLoop_ok (fl : FloatLib) (T : TypeParam) (fuel : Nat) (p p1 : parser)
    (seeds : List Nat) (objects : List Record) (obj : Record)
    (h : parser.Read fl T p (seeds.headD 0) = (.ok obj, p1)) :
    readAllLoop fl T (fuel + 1) p seeds objects =
      readAllLoop fl T fuel p1 seeds.tail (objects ++ [obj]) := by
  simp only [readAllLoop, h]

theorem readAllLoop_EOF (fl : FloatLib) (T : TypeParam) (fuel : Nat) (p p1 : parser)
    (seeds : List Nat) (objects : List Record)
    (h : parser.Read fl T p (seeds.headD 0) = (.err .EOF, p1)) :
    readAllLoop fl T (fuel + 1) p seeds objects = (.ok objects, p1) := by
  simp only [readAllLoop, h]

theorem readAllLoop_err (fl : FloatLib) (T : TypeParam) (fuel : Nat) (p p1 : parser)
    (seeds : List Nat) (objects : List Record) (e : Error) (he : e ≠ .EOF)
    (h : parser.Read fl T p (seeds.headD 0) = (.err e, p1)) :
    readAllLoop fl T (fuel + 1) p seeds objects = (.err e, p1) := by
  cases e <;> first | exact absurd rfl he | simp only [readAllLoop, h]

theorem readAllLoop_panic (fl : FloatLib) (T : TypeParam) (fuel : Nat) (p p1 : parser)
    (seeds : List Nat) (objects : List Record) (q : Panic)
    (h : parser.Read fl T p (seeds.headD 0) = (.panic q, p1)) :
    readAllLoop fl T (fuel + 1) p seeds objects = (.panic q, p1) := by
  simp only [readAllLoop, h]

/-- When every remaining row decodes, whatever the order of the passes, the loop of `ReadAll`
returns the decoded rows in input order. -/
theorem readAllLoop_rows (fl : FloatLib) (T : TypeParam) (recOf : List String → Record)
    (rows : List (List String)) (fuel : Nat) (p : parser) (seeds : List Nat)
    (objects : List Record)
    (hin : p.reader.input = some (rows.map Event.record))
    (hpos : 0 < p.reader.FieldsPerRecord)
    (hlen : ∀ row ∈ rows, row.length = p.reader.FieldsPerRecord)
    (hdec : ∀ row ∈ rows, ∀ seed,
      decodeRow fl T row (rangeOrder seed p.header) (zeroOf T) = .ok (recOf row))
    (hfuel : rows.length < fuel) :
    (readAllLoop fl T fuel p seeds objects).1 = .ok (objects ++ rows.map recOf) := by
  induction rows generalizing fuel p seeds objects with
  | nil =>
    cases fuel with
    | zero => simp at hfuel
    | succ fuel =>
      have : parser.Read fl T p (seeds.headD 0) = (.err .EOF, p) := by
        simp only [List.map_nil] at hin
        simp [parser.Read, CsvReader.Read, hin]
      rw [readAllLoop_EOF fl T fuel p p seeds objects this]
      simp
  | cons row rows ih =>
    cases fuel with
    | zero => simp at hfuel
    | succ fuel =>
      have hr := Read_record fl T p (seeds.headD 0) row (rows.map Event.record)
        (by simpa using hin) (hlen row (by simp)) hpos
      rw [hdec row (by simp)] at hr
      rw [readAllLoop_ok fl T fuel p _ seeds objects _ hr]
      have hstep := ih fuel
        { p with reader := { p.reader with input := some (rows.map Event.record) } }
        seeds.tail (objects ++ [recOf row]) rfl hpos
        (fun r hr => hlen r (List.mem_cons_of_mem _ hr))
        (fun r hr => hdec r (List.mem_cons_of_mem _ hr))
        (by simpa using hfuel)
      rw [hstep]
      simp

theorem cellOutcome_of_convert (fl : FloatLib) (tt : RType) (row : List String) (f : String)
    (i : Nat) (F : StructField) (cell : String) (v : Value)
    (hF : FieldByName tt.VisibleFields f = some F) (hex : F.IsExported = true)
    (hrow : row.get? i = some cell) (hc : convertCell fl F.Kind cell = some v) :
    cellOutcome fl tt row f i = .ok v := by
  obtain ⟨h1, h2⟩ := parseCell_of_convertCell fl F.Kind cell v hc
  simp only [cellOutcome, hF, h2, hrow, h1, hex, if_true]

theorem zeroRecord_get (fields : List StructField) (name : String)
    (h : name ∈ fields.map (·.Name)) : ((zeroRecord fields).get name).isSome = true := by
  induction fields with
  | nil => simp at h
  | cons f rest ih =>
    by_cases hf : f.Name = name
    · simp [zeroRecord, Record.get, hf]
    · simp only [List.map_cons, List.mem_cons] at h
      rcases h with h | h
      · exact absurd h.symm hf
      · simpa [zeroRecord, Record.get, hf] using ih h

theorem ReadAll_eq (fl : FloatLib) (T : TypeParam) (p : parser) (seeds : List Nat)
    (evs : List Event) (h : p.reader.input = some evs) :
    parser.ReadAll fl T p seeds = readAllLoop fl T (evs.length + 1) p seeds [] := by
  simp [parser.ReadAll, CsvReader.pending, h]

/-- What every entry of the binding gives on a row of the right length whose bound cells
convert: the pass stores the converted cell. -/
theorem bound_entry_converts (fl : FloatLib) (tt : RType) (h : List String)
    (row : List String) (hwf : tt.WellFormed)
    (hsub : ∀ F ∈ tt.VisibleFields.filter (·.IsExported), F.Name ∈ h)
    (hlen : row.length = h.length)
    (hconv : ∀ F ∈ tt.VisibleFields, F.IsExported = true → ∀ c cell,
      h.get? c = some F.Name → row.get? c = some cell →
      (convertCell fl F.Kind cell).isSome = true)
    (F : StructField) (hF : F ∈ tt.VisibleFields.filter (·.IsExported)) :
    ∃ cell v, row.get? (h.indexOf F.Name) = some cell ∧ convertCell fl F.Kind cell = some v ∧
      cellOutcome fl tt row F.Name (h.indexOf F.Name) = .ok v := by
  have hF2 := List.mem_filter.1 hF
  have hex : F.IsExported = true := by simpa using hF2.2
  have hidx : h.indexOf F.Name < row.length := by
    rw [hlen]
    exact List.indexOf_lt_length.2 (hsub F hF)
  have hrow : row.get? (h.indexOf F.Name) = some (row.get ⟨_, hidx⟩) := List.get?_eq_get hidx
  have hget : h.get? (h.indexOf F.Name) = some F.Name := List.indexOf_get? (hsub F hF)
  have hc := hconv F hF2.1 hex _ _ hget hrow
  obtain ⟨v, hv⟩ := Option.isSome_iff_exists.1 hc
  exact ⟨_, v, hrow, hv, cellOutcome_of_convert fl tt row _ _ F _ v (hwf.2 F hF2.1 hex) hex hrow hv⟩

/-- C1: for a struct type with at least one exported field, a header row whose transformed
names are exactly the exported field names and data rows of the header's length whose bound
cells all convert (which entails that the exported fields are of supported kinds), `Parse`
returns no error and one record per data row, in input row order, in which every exported
field holds the conversion of the cell at the column whose transformed header is the field's
name. -/
theorem Parse_complete (fl : FloatLib) (tt : RType) (hdr : List String)
    (rows : List (List String)) (opts : List ParseOption) (seeds : List Nat)
    (hk : tt.Kind = Kind.Struct) (hwf : tt.WellFormed)
    (hne : tt.VisibleFields.filter (·.IsExported) ≠ [])
    (hperm : (getHeader (getOptions opts) hdr).Perm
      ((tt.VisibleFields.filter (·.IsExported)).map (·.Name)))
    (hlen : ∀ row ∈ rows, row.length = hdr.length)
    (hconv : ∀ row ∈ rows, ∀ F ∈ tt.VisibleFields, F.IsExported = true → ∀ c cell,
      (getHeader (getOptions opts) hdr).get? c = some F.Name → row.get? c = some cell →
      (convertCell fl F.Kind cell).isSome = true) :
    ∃ recs,
      Parse fl (some tt) (some (.record hdr :: rows.map Event.record)) opts seeds = .ok recs ∧
      recs.length = rows.length ∧
      ∀ k row, rows.get? k = some row → ∃ rec, recs.get? k = some rec ∧
        ∀ F ∈ tt.VisibleFields, F.IsExported = true → ∀ c cell,
          (getHeader (getOptions opts) hdr).get? c = some F.Name → row.get? c = some cell →
          rec.get F.Name = convertCell fl F.Kind cell := by
  generalize hh : getHeader (getOptions opts) hdr = h at hperm hconv
  have hhl : h.length = hdr.length := by rw [← hh]; exact getHeader_length _ _
  have hnd := hwf.1
  have hsub : ∀ F ∈ tt.VisibleFields.filter (·.IsExported), F.Name ∈ h :=
    fun F hF => hperm.symm.subset (List.mem_map_of_mem _ hF)
  have hhn : h.Nodup := hperm.nodup_iff.2 hnd
  have hm := (mapHeader_ok_iff (tt.VisibleFields.filter (·.IsExported)) h _).2
    ⟨hnd, hsub, fun s hs => hperm.subset hs, rfl⟩
  have hNP := NewParser_of_mapHeader tt hdr (rows.map Event.record) opts _ hk hne (hh ▸ hm)
  rw [hh] at hNP
  have hpos : 0 < hdr.length := by
    rw [← hhl, hperm.length_eq, List.length_map]
    exact List.length_pos.2 hne
  let val : List String → String × Nat → Value := fun row e =>
    match cellOutcome fl tt row e.1 e.2 with
    | .ok v => v
    | _ => Value.zero Kind.Invalid
  let m : GoMap := (tt.VisibleFields.filter (·.IsExported)).map
    (fun f => (f.Name, h.indexOf f.Name))
  let recOf : List String → Record := fun row =>
    m.foldl (fun o e => o.set e.1 (val row e)) (zeroOf (some tt))
  have hkeys : m.map Prod.fst = (tt.VisibleFields.filter (·.IsExported)).map (·.Name) := by
    simp [m, List.map_map, Function.comp_def]
  have hmnd : (m.map Prod.fst).Nodup := by rw [hkeys]; exact hnd
  have hentry : ∀ row ∈ rows, ∀ e ∈ m, cellOutcome fl tt row e.1 e.2 = .ok (val row e) := by
    intro row hrow e he
    obtain ⟨F, hF, rfl⟩ := List.mem_map.1 he
    obtain ⟨cell, v, _, _, hv⟩ := bound_entry_converts fl tt h row hwf hsub
      ((hlen row hrow).trans hhl.symm) (hconv row hrow) F hF
    simp only [val, hv]
  have hdec : ∀ row ∈ rows, ∀ seed,
      decodeRow fl (some tt) row (rangeOrder seed m) (zeroOf (some tt)) = .ok (recOf row) := by
    intro row hrow seed
    have hp := rangeOrder_perm seed m
    rw [decodeRow_ok fl tt hk row (val row) (rangeOrder seed m) _
      (fun e he => hentry row hrow e (hp.subset he))]
    congr 1
    exact foldl_set_perm (val row) _ _ ((hp.map Prod.fst).nodup_iff.2 hmnd) hp _
  have hparse : Parse fl (some tt) (some (.record hdr :: rows.map Event.record)) opts seeds =
      .ok (rows.map recOf) := by
    simp only [Parse, hNP]
    rw [ReadAll_eq fl (some tt) _ seeds (rows.map Event.record) rfl]
    have := readAllLoop_rows fl (some tt) recOf rows ((rows.map Event.record).length + 1)
      { opts := getOptions opts,
        reader := { FieldsPerRecord := hdr.length, input := some (rows.map Event.record) },
        fields := tt.VisibleFields.filter (·.IsExported), header := m }
      seeds [] rfl hpos hlen hdec (by simp)
    simpa using this
  refine ⟨rows.map recOf, hparse, by simp, ?_⟩
  intro k row hkrow
  refine ⟨recOf row, by simp [List.get?_eq_getElem?, List.getElem?_map] at hkrow ⊢; simp [hkrow], ?_⟩
  intro F hFv hex c cell hc hcell
  have hrow : row ∈ rows := List.get?_mem hkrow
  have hF : F ∈ tt.VisibleFields.filter (·.IsExported) := List.mem_filter.2 ⟨hFv, by simpa using hex⟩
  have hcidx : c = h.indexOf F.Name := by
    have hclt : c < h.length := by
      by_contra hge
      rw [List.get?_eq_none.2 (by omega)] at hc
      exact Option.noConfusion hc
    have : h.get ⟨c, hclt⟩ = F.Name := by
      rw [List.get?_eq_get hclt] at hc
      exact Option.some.inj hc
    rw [← this]
    exact (List.indexOf_getElem hhn c hclt).symm
  subst hcidx
  obtain ⟨cell1, v, hc1, hv, ho⟩ := bound_entry_converts fl tt h row hwf hsub
    ((hlen row hrow).trans hhl.symm) (hconv row hrow) F hF
  have hcell2 : cell1 = cell := Option.some.inj (hc1.symm.trans hcell)
  subst hcell2
  have he : (F.Name, h.indexOf F.Name) ∈ m := List.mem_map.2 ⟨F, hF, rfl⟩
  have hg : (recOf row).get F.Name =
      ((zeroOf (some tt)).get F.Name).map (fun _ => val row (F.Name, h.indexOf F.Name)) :=
    foldl_set_get (val row) m hmnd (zeroOf (some tt)) _ he
  have hz := zeroRecord_get tt.VisibleFields F.Name (List.mem_map_of_mem _ hFv)
  obtain ⟨z, hz⟩ := Option.isSome_iff_exists.1 hz
  have hval : val row (F.Name, h.indexOf F.Name) = v := by simp only [val, ho]
  rw [hg, hv, hval]
  simp only [zeroOf, hz, Option.map_some']

/-- The cells bound through the first occurrence of each field name. -/
theorem bound_cells_of_indexOf (fl : FloatLib) (tt : RType) (h : List String)
    (rows : List (List String)) (hn : h.Nodup)
    (hc : ∀ row ∈ rows, ∀ F ∈ tt.VisibleFields, F.IsExported = true →
      (convertCell fl F.Kind (row.getD (h.indexOf F.Name) "")).isSome = true) :
    ∀ row ∈ rows, ∀ F ∈ tt.VisibleFields, F.IsExported = true → ∀ c cell,
      h.get? c = some F.Name → row.get? c = some cell →
      (convertCell fl F.Kind cell).isSome = true := by
  intro row hrow F hF hex c cell hcn hcell
  have hclt : c < h.length := by
    by_contra hge
    rw [List.get?_eq_none.2 (by omega)] at hcn
    exact Option.noConfusion hcn
  have hget : h.get ⟨c, hclt⟩ = F.Name := by
    rw [List.get?_eq_get hclt] at hcn
    exact Option.some.inj hcn
  have hidx : h.indexOf F.Name = c := by
    rw [← hget]
    exact List.indexOf_getElem hn c hclt
  have := hc row hrow F hF hex
  rw [hidx] at this
  have hd : row.getD c "" = cell := by
    rw [List.getD_eq_getElem?_getD, ← List.get?_eq_getElem?, hcell]
    rfl
  rw [hd] at this
  exact this

theorem Parse_complete_witness :
    ∃ recs,
      Parse noFloats (some simpleObj)
        (some (.record ["name", "ident", "other_thing"] ::
          [["foo", "1", "bar"], ["bar", "2", "baz"]].map Event.record)) [] [3, 4] = .ok recs ∧
      recs.length = [["foo", "1", "bar"], ["bar", "2", "baz"]].length :=
  let ⟨recs, h1, h2, _⟩ := Parse_complete noFloats simpleObj ["name", "ident", "other_thing"]
    [["foo", "1", "bar"], ["bar", "2", "baz"]] [] [3, 4] rfl (by decide) (by decide)
    (List.Perm.swap "Ident" "Name" ["OtherThing"]) (by decide)
    (bound_cells_of_indexOf noFloats simpleObj _ _ (by decide) (by decide))
  ⟨recs, h1, h2⟩

/-! ## Failures of the row decoder -/

theorem cellOutcome_ok_of_decodeField (fl : FloatLib) (tt : RType) (hk : tt.Kind = Kind.Struct)
    (row : List String) (obj obj1 : Record) (f : String) (i : Nat)
    (h : decodeField fl (some tt) row obj f i = .ok obj1) :
    ∃ v, cellOutcome fl tt row f i = .ok v := by
  rw [decodeField_eq fl tt hk] at h
  cases hc : cellOutcome fl tt row f i with
  | ok v => exact ⟨v, rfl⟩
  | err e => rw [hc] at h; exact Outcome.noConfusion h
  | panic q => rw [hc] at h; exact Outcome.noConfusion h

theorem eq_none_of_isSome_false {α : Type} (o : Option α) (h : o.isSome = false) : o = none := by
  cases o with
  | none => rfl
  | some a => exact Bool.noConfusion h

theorem parseCell_fail (fl : FloatLib) (k : Kind) (K : TargetKind) (v : String)
    (hK : targetOf k = some K) (hf : parseable fl K v = false) :
    parseCell fl k v = .err (.errorf ("failed to convert \"" ++ v ++ "\" to " ++ K.name)) ∧
      supportedKind k = true := by
  have e1 : "failed to convert \"" ++ v ++ "\" to " ++ "int" =
      "failed to convert \"" ++ v ++ "\" to int" := by
    rw [String.append_assoc _ "\" to " "int"]; rfl
  have e2 : "failed to convert \"" ++ v ++ "\" to " ++ "uint" =
      "failed to convert \"" ++ v ++ "\" to uint" := by
    rw [String.append_assoc _ "\" to " "uint"]; rfl
  have e3 : "failed to convert \"" ++ v ++ "\" to " ++ "bool" =
      "failed to convert \"" ++ v ++ "\" to bool" := by
    rw [String.append_assoc _ "\" to " "bool"]; rfl
  have e4 : "failed to convert \"" ++ v ++ "\" to " ++ "float" =
      "failed to convert \"" ++ v ++ "\" to float" := by
    rw [String.append_assoc _ "\" to " "float"]; rfl
  cases k <;> simp only [targetOf, Option.some.injEq] at hK <;>
    first
      | exact Option.noConfusion hK
      | (subst hK
         have hf1 := eq_none_of_isSome_false _ hf
         simp only [parseCell, hf1, TargetKind.name, e1, e2, e3, e4, supportedKind, and_self])

/-- C8: when the cell `v` bound to a field whose kind has target kind K (int, uint, bool or
float) is not parseable as K and every other entry of the binding decodes, `Read` returns no
record and the error whose message is `failed to convert "v" to K`, with `v` verbatim, in
whatever order the binding is ranged over. -/
theorem Read_conversion_error (fl : FloatLib) (tt : RType) (p : parser) (seed : Nat)
    (row : List String) (rest : List Event) (f : String) (i : Nat) (F : StructField)
    (v : String) (K : TargetKind)
    (hk : tt.Kind = Kind.Struct)
    (hin : p.reader.input = some (.record row :: rest))
    (hn : row.length = p.reader.FieldsPerRecord) (hpos : 0 < p.reader.FieldsPerRecord)
    (hmem : (f, i) ∈ p.header)
    (hF : FieldByName tt.VisibleFields f = some F)
    (hcell : row.get? i = some v)
    (hK : targetOf F.Kind = some K) (hfail : parseable fl K v = false)
    (hothers : ∀ e ∈ p.header, e ≠ (f, i) →
      ∀ obj, ∃ obj1, decodeField fl (some tt) row obj e.1 e.2 = .ok obj1) :
    (parser.Read fl (some tt) p seed).1 =
      .err (.errorf ("failed to convert \"" ++ v ++ "\" to " ++ K.name)) := by
  rw [Read_record fl (some tt) p seed row rest hin hn hpos]
  have hp := rangeOrder_perm seed p.header
  obtain ⟨h1, h2⟩ := parseCell_fail fl F.Kind K v hK hfail
  have hx : cellOutcome fl tt row f i =
      .err (.errorf ("failed to convert \"" ++ v ++ "\" to " ++ K.name)) := by
    simp only [cellOutcome, hF, h2, hcell, h1, if_true]
  exact decodeRow_err fl tt hk row _ _ (f, i) _ (hp.symm.subset hmem) hx
    (fun e he hne => by
      obtain ⟨obj1, h3⟩ := hothers e (hp.subset he) hne []
      exact cellOutcome_ok_of_decodeField fl tt hk row [] obj1 e.1 e.2 h3)

theorem Read_conversion_error_witness :
    (parser.Read noFloats (some simpleObj)
      { opts := getOptions [],
        reader := { FieldsPerRecord := 3, input := some [.record ["baz", "foo", "bar"]] },
        fields := simpleObj.VisibleFields.filter (·.IsExported),
        header := [("Ident", 0), ("Name", 1), ("OtherThing", 2)] } 4).1 =
      .err (.errorf ("failed to convert \"" ++ "baz" ++ "\" to " ++ TargetKind.int.name)) :=
  Read_conversion_error noFloats simpleObj _ 4 ["baz", "foo", "bar"] [] "Ident" 0
    { Name := "Ident", PkgPath := "", Kind := Kind.Int } "baz" TargetKind.int
    rfl rfl rfl (by decide) (by decide) rfl rfl rfl (by decide)
    (fun e he hne obj => by
      simp only [List.mem_cons, List.mem_singleton, List.not_mem_nil, or_false] at he
      rcases he with rfl | rfl | rfl
      · exact absurd rfl hne
      · exact ⟨_, rfl⟩
      · exact ⟨_, rfl⟩)

theorem parseCell_err (fl : FloatLib) (k : Kind) (cell : String) (e : Error)
    (h : parseCell fl k cell = .err e) : ∃ msg, e = .errorf msg := by
  cases k <;> simp only [parseCell] at h <;>
    first
      | (injection h with h; exact ⟨_, h.symm⟩)
      | exact Outcome.noConfusion h
      | (split at h <;> first
          | (injection h with h; exact ⟨_, h.symm⟩)
          | exact Outcome.noConfusion h)

theorem cellOutcome_err (fl : FloatLib) (tt : RType) (row : List String) (f : String) (i : Nat)
    (e : Error) (h : cellOutcome fl tt row f i = .err e) : ∃ msg, e = .errorf msg := by
  unfold cellOutcome at h
  split at h
  · injection h with h; exact ⟨_, h.symm⟩
  · split at h
    · split at h
      · exact Outcome.noConfusion h
      · split at h
        · split at h <;> exact Outcome.noConfusion h
        · rename_i e1 he1
          injection h with h
          subst h
          exact parseCell_err fl _ _ _ he1
        · exact Outcome.noConfusion h
    · injection h with h; exact ⟨_, h.symm⟩

theorem decodeRow_err_errorf (fl : FloatLib) (tt : RType) (hk : tt.Kind = Kind.Struct)
    (row : List String) (es : List (String × Nat)) (obj : Record) (e : Error)
    (h : decodeRow fl (some tt) row es obj = .err e) : ∃ msg, e = .errorf msg := by
  induction es generalizing obj with
  | nil => exact Outcome.noConfusion h
  | cons e1 rest ih =>
    obtain ⟨f, i⟩ := e1
    simp only [decodeRow, decodeField_eq fl tt hk] at h
    cases hc : cellOutcome fl tt row f i with
    | ok v => rw [hc] at h; exact ih _ h
    | err x =>
      rw [hc] at h
      injection h with h
      subst h
      exact cellOutcome_err fl tt row f i _ hc
    | panic q => rw [hc] at h; exact Outcome.noConfusion h

/-- A failure of the first call of `Read` that is not the end of the input makes the loop of
`ReadAll` fail with the same outcome. -/
theorem readAllLoop_first_fails (fl : FloatLib) (T : TypeParam) (fuel : Nat) (p p1 : parser)
    (seeds : List Nat) (objects : List Record) (o : Outcome Record)
    (h : parser.Read fl T p (seeds.headD 0) = (o, p1)) (hne : o ≠ .err .EOF)
    (hno : o.records = none) :
    (readAllLoop fl T (fuel + 1) p seeds objects).1.records = none ∧
      ∀ e, o = .err e → (readAllLoop fl T (fuel + 1) p seeds objects).1 = .err e := by
  cases o with
  | ok v => simp [Outcome.records] at hno
  | panic q =>
    rw [readAllLoop_panic fl T fuel p p1 seeds objects q h]
    exact ⟨rfl, fun e he => Outcome.noConfusion he⟩
  | err x =>
    have hx : x ≠ .EOF := fun hx => hne (by rw [hx])
    rw [readAllLoop_err fl T fuel p p1 seeds objects x hx h]
    refine ⟨rfl, fun e he => ?_⟩
    injection he with he
    rw [he]

/-- C9, counterexample: with `struct { A int; B []string }` and the row `x,y`, `Parse`
reports the conversion error of `A` when the binding is ranged over with `A` first, and the
unsupported type of `B` when `B` comes first. -/
theorem unsupported_type_masked :
    Parse noFloats (some withSlice) (some [.record ["a", "b"], .record ["x", "y"]]) [] [0] =
      .err (.errorf "failed to convert \"x\" to int") ∧
    Parse noFloats (some withSlice) (some [.record ["a", "b"], .record ["x", "y"]]) [] [1] =
      .err (.errorf "unsupported type: slice") := by
  decide

/-- C9, amended: when a bound field has an unsupported kind, `Read` on a data row returns no
record and `Parse` on an input whose first data row it is returns no result, whatever the
other cells contain; when every other entry of the binding decodes, the error of both is
"unsupported type: " followed by the name of that kind. -/
theorem Read_unsupported_type (fl : FloatLib) (tt : RType) (hdr row : List String)
    (evs : List Event) (opts : List ParseOption) (p : parser) (f : String) (i : Nat)
    (F : StructField)
    (hnew : NewParser (some tt) (some (.record hdr :: .record row :: evs)) opts = .ok p)
    (hlen : row.length = hdr.length)
    (hmem : (f, i) ∈ p.header)
    (hF : FieldByName tt.VisibleFields f = some F)
    (hun : supportedKind F.Kind = false) :
    (∀ seed, (parser.Read fl (some tt) p seed).1.records = none) ∧
    (∀ seeds, (Parse fl (some tt) (some (.record hdr :: .record row :: evs)) opts seeds).records
      = none) ∧
    ((∀ e ∈ p.header, e ≠ (f, i) →
        ∀ obj, ∃ obj1, decodeField fl (some tt) row obj e.1 e.2 = .ok obj1) →
      (∀ seed, (parser.Read fl (some tt) p seed).1 =
        .err (.errorf ("unsupported type: " ++ kindName F.Kind))) ∧
      (∀ seeds, Parse fl (some tt) (some (.record hdr :: .record row :: evs)) opts seeds =
        .err (.errorf ("unsupported type: " ++ kindName F.Kind)))) := by
  obtain ⟨hk, _, hmap, hfpr, hinp⟩ := NewParser_ok tt hdr _ opts p hnew
  have hpos : 0 < p.reader.FieldsPerRecord := by
    rw [hfpr, ← getHeader_length (getOptions opts) hdr]
    obtain ⟨_, hall, _, hm⟩ := (mapHeader_ok_iff _ _ _).1 hmap
    rw [hm] at hmem
    obtain ⟨G, hG, _⟩ := List.mem_map.1 hmem
    exact List.length_pos_of_mem (hall G hG)
  have hn : row.length = p.reader.FieldsPerRecord := by rw [hfpr, hlen]
  have hread := fun seed => Read_record fl (some tt) p seed row evs hinp hn hpos
  have hx : cellOutcome fl tt row f i =
      .err (.errorf ("unsupported type: " ++ kindName F.Kind)) := by
    simp only [cellOutcome, hF, hun, Bool.false_eq_true, if_false]
  have hfail : ∀ seed, (parser.Read fl (some tt) p seed).1.records = none := by
    intro seed
    rw [hread seed]
    exact decodeRow_fails fl tt hk row _ _ (f, i)
      ((rangeOrder_perm seed p.header).symm.subset hmem) (by rw [hx]; rfl)
  have hneof : ∀ seed, (parser.Read fl (some tt) p seed).1 ≠ .err .EOF := by
    intro seed heq
    rw [hread seed] at heq
    obtain ⟨msg, hmsg⟩ := decodeRow_err_errorf fl tt hk row _ _ _ heq
    exact Error.noConfusion hmsg
  have hparse : ∀ seeds, Parse fl (some tt) (some (.record hdr :: .record row :: evs)) opts seeds
      = (readAllLoop fl (some tt) (evs.length + 1 + 1) p seeds []).1 := by
    intro seeds
    simp only [Parse, hnew]
    rw [ReadAll_eq fl (some tt) p seeds _ hinp]
    rfl
  refine ⟨hfail, ?_, ?_⟩
  · intro seeds
    rw [hparse seeds]
    exact (readAllLoop_first_fails fl (some tt) _ p _ seeds [] _ rfl
      (hneof _) (hfail _)).1
  · intro hothers
    have hr : ∀ seed, (parser.Read fl (some tt) p seed).1 =
        .err (.errorf ("unsupported type: " ++ kindName F.Kind)) := by
      intro seed
      rw [hread seed]
      have hp := rangeOrder_perm seed p.header
      exact decodeRow_err fl tt hk row _ _ (f, i) _ (hp.symm.subset hmem) hx
        (fun e he hne => by
          obtain ⟨obj1, h3⟩ := hothers e (hp.subset he) hne []
          exact cellOutcome_ok_of_decodeField fl tt hk row [] obj1 e.1 e.2 h3)
    refine ⟨hr, fun seeds => ?_⟩
    rw [hparse seeds]
    exact (readAllLoop_first_fails fl (some tt) _ p _ seeds [] _ rfl
      (hneof _) (hfail _)).2 _ (hr _)

theorem Read_unsupported_type_witness :
    (Parse noFloats (some withSlice)
      (some (.record ["a", "b"] :: .record ["x", "y"] :: [])) [] [0]).records = none :=
  (Read_unsupported_type noFloats withSlice ["a", "b"] ["x", "y"] [] []
    { opts := getOptions [],
      reader := { FieldsPerRecord := 2, input := some [.record ["x", "y"]] },
      fields := withSlice.VisibleFields.filter (·.IsExported),
      header := [("A", 0), ("B", 1)] } "B" 1
    { Name := "B", PkgPath := "", Kind := Kind.Slice } rfl rfl (by decide) rfl rfl).2.1 [0]

/-! ## Permuting the columns -/

theorem permuteCols_range (l : List String) : permuteCols (List.range l.length) l = l := by
  apply List.ext_getElem
  · simp [permuteCols]
  · intro i h1 h2
    simp [permuteCols, List.getD_eq_getElem?_getD, List.getElem?_eq_getElem h2]

theorem permuteCols_perm (σ : List Nat) (l : List String)
    (hσ : σ.Perm (List.range l.length)) : (permuteCols σ l).Perm l := by
  have := hσ.map (fun i => l.getD i "")
  have h2 := permuteCols_range l
  unfold permuteCols at h2 ⊢
  rw [h2] at this
  exact this

theorem permuteCols_map (σ : List Nat) (l : List String) (t : String → String)
    (hσ : ∀ i ∈ σ, i < l.length) :
    (permuteCols σ l).map t = permuteCols σ (l.map t) := by
  unfold permuteCols
  rw [List.map_map]
  apply List.map_congr_left
  intro i hi
  have h := hσ i hi
  simp [List.getD_eq_getElem?_getD, List.getElem?_eq_getElem h]

theorem getHeader_permuteCols (o : options) (σ : List Nat) (hdr : List String)
    (hσ : ∀ i ∈ σ, i < hdr.length) :
    getHeader o (permuteCols σ hdr) = permuteCols σ (getHeader o hdr) := by
  unfold getHeader
  split
  · simp only [remap_eq_map]
    exact permuteCols_map σ hdr _ hσ
  · split
    · simp only [remap_eq_map]
      exact permuteCols_map σ hdr _ hσ
    · rfl

/-- A permuted row holds, below the permuted position of a header name, the cell the row
holds below the position of that name. -/
theorem permuteCols_cell (σ : List Nat) (h row : List String) (name : String)
    (hσ : σ.Perm (List.range h.length)) (hnd : h.Nodup) (hlen : row.length = h.length)
    (hmem : name ∈ h) :
    (permuteCols σ row).get? ((permuteCols σ h).indexOf name) = row.get? (h.indexOf name) := by
  have hperm := permuteCols_perm σ h hσ
  have hmem2 : name ∈ permuteCols σ h := hperm.symm.subset hmem
  have hj : (permuteCols σ h).indexOf name < σ.length := by
    have := List.indexOf_lt_length.2 hmem2
    simpa [permuteCols] using this
  have hget := List.indexOf_get? hmem2
  generalize (permuteCols σ h).indexOf name = j at hj hget
  have hs : σ.get ⟨j, hj⟩ < h.length := by
    have : σ.get ⟨j, hj⟩ ∈ List.range h.length := hσ.subset (List.get_mem _ _ _)
    simpa using this
  have hname : h.get ⟨σ.get ⟨j, hj⟩, hs⟩ = name := by
    simp only [permuteCols, List.get?_eq_getElem?, List.getElem?_map,
      List.getElem?_eq_getElem hj, Option.map_some', Option.some.injEq] at hget
    simp only [List.get_eq_getElem] at hs ⊢
    rw [List.getD_eq_getElem?_getD, List.getElem?_eq_getElem hs] at hget
    simpa using hget
  have hidx : h.indexOf name = σ.get ⟨j, hj⟩ := by
    rw [← hname]
    exact List.indexOf_getElem hnd _ hs
  rw [hidx]
  have hs2 : σ.get ⟨j, hj⟩ < row.length := by rw [hlen]; exact hs
  simp only [List.get_eq_getElem] at hs2 ⊢
  simp [permuteCols, List.get?_eq_getElem?, List.getElem?_map, List.getElem?_eq_getElem hj,
    List.getD_eq_getElem?_getD, List.getElem?_eq_getElem hs2]

theorem cellOutcome_congr (fl : FloatLib) (tt : RType) (row row1 : List String) (f : String)
    (i i1 : Nat) (h : row.get? i = row1.get? i1) :
    cellOutcome fl tt row f i = cellOutcome fl tt row1 f i1 := by
  unfold cellOutcome
  rw [h]

/-- Two rows that hold the same cells below the columns bound to each field decode to the same
record, or both fail, whatever the two orders of the passes. -/
theorem decodeRow_records_congr (fl : FloatLib) (tt : RType) (hk : tt.Kind = Kind.Struct)
    (row row1 : List String) (fs : List StructField) (g g1 : StructField → Nat)
    (hnd : (fs.map (·.Name)).Nodup)
    (hcong : ∀ F ∈ fs, row.get? (g F) = row1.get? (g1 F))
    (es es1 : List (String × Nat))
    (hes : es.Perm (fs.map (fun F => (F.Name, g F))))
    (hes1 : es1.Perm (fs.map (fun F => (F.Name, g1 F)))) (obj : Record) :
    (decodeRow fl (some tt) row es obj).records =
      (decodeRow fl (some tt) row1 es1 obj).records := by
  have hkeys : ∀ (k : StructField → Nat),
      ((fs.map (fun F => (F.Name, k F))).map Prod.fst) = fs.map (·.Name) := by
    intro k
    simp [List.map_map, Function.comp_def]
  have hc : ∀ F ∈ fs, cellOutcome fl tt row F.Name (g F) = cellOutcome fl tt row1 F.Name (g1 F) :=
    fun F hF => cellOutcome_congr fl tt row row1 F.Name _ _ (hcong F hF)
  by_cases hall : ∀ F ∈ fs, ∃ v, cellOutcome fl tt row F.Name (g F) = .ok v
  · have hval : ∀ (r : List String) (k : StructField → Nat) (l : List (String × Nat)),
        l.Perm (fs.map (fun F => (F.Name, k F))) →
        (∀ F ∈ fs, ∃ v, cellOutcome fl tt r F.Name (k F) = .ok v) →
        decodeRow fl (some tt) r l obj =
          .ok (fs.foldl (fun o F => o.set F.Name (storedValue fl tt r (F.Name, k F))) obj) := by
      intro r k l hl hok
      rw [decodeRow_ok fl tt hk r (storedValue fl tt r) l obj]
      · congr 1
        have hlnd : (l.map Prod.fst).Nodup := by
          rw [(hl.map Prod.fst).nodup_iff, hkeys]
          exact hnd
        rw [foldl_set_perm (storedValue fl tt r) l _ hlnd hl obj, List.foldl_map]
      · intro e he
        obtain ⟨F, hF, rfl⟩ := List.mem_map.1 (hl.subset he)
        obtain ⟨v, hv⟩ := hok F hF
        simp only [storedValue, hv]
    rw [hval row g es hes hall, hval row1 g1 es1 hes1 (fun F hF => by rw [← hc F hF]; exact hall F hF)]
    congr 2
    apply List.foldl_ext
    intro o F hF
    simp only [storedValue, hc F hF]
  · simp only [not_forall] at hall
    obtain ⟨F, hF, hno⟩ := hall
    have hnone : (cellOutcome fl tt row F.Name (g F)).records = none := by
      cases hco : cellOutcome fl tt row F.Name (g F) with
      | ok v => exact absurd ⟨v, hco⟩ hno
      | err e => rfl
      | panic q => rfl
    rw [decodeRow_fails fl tt hk row es obj (F.Name, g F)
        (hes.symm.subset (List.mem_map.2 ⟨F, hF, rfl⟩)) hnone,
      decodeRow_fails fl tt hk row1 es1 obj (F.Name, g1 F)
        (hes1.symm.subset (List.mem_map.2 ⟨F, hF, rfl⟩)) (by rw [← hc F hF]; exact hnone)]

/-- Two parsers whose remaining rows decode alike return the same records from `ReadAll`. -/
theorem readAllLoop_rel (fl : FloatLib) (tt : RType) (hk : tt.Kind = Kind.Struct)
    (π : List String → List String) (rows : List (List String)) (fuel1 fuel2 : Nat)
    (p1 p2 : parser) (seeds1 seeds2 : List Nat) (objects : List Record)
    (hin1 : p1.reader.input = some (rows.map Event.record))
    (hin2 : p2.reader.input = some ((rows.map π).map Event.record))
    (hpos1 : 0 < p1.reader.FieldsPerRecord) (hpos2 : 0 < p2.reader.FieldsPerRecord)
    (hlen1 : ∀ row ∈ rows, row.length = p1.reader.FieldsPerRecord)
    (hlen2 : ∀ row ∈ rows, (π row).length = p2.reader.FieldsPerRecord)
    (hrel : ∀ row ∈ rows, ∀ s1 s2,
      (decodeRow fl (some tt) row (rangeOrder s1 p1.header) (zeroOf (some tt))).records =
      (decodeRow fl (some tt) (π row) (rangeOrder s2 p2.header) (zeroOf (some tt))).records)
    (hf1 : rows.length < fuel1) (hf2 : rows.length < fuel2) :
    (readAllLoop fl (some tt) fuel1 p1 seeds1 objects).1.records =
      (readAllLoop fl (some tt) fuel2 p2 seeds2 objects).1.records := by
  induction rows generalizing fuel1 fuel2 p1 p2 seeds1 seeds2 objects with
  | nil =>
    cases fuel1 with
    | zero => simp at hf1
    | succ fuel1 =>
      cases fuel2 with
      | zero => simp at hf2
      | succ fuel2 =>
        have e1 : parser.Read fl (some tt) p1 (seeds1.headD 0) = (.err .EOF, p1) := by
          simp only [List.map_nil] at hin1
          simp [parser.Read, CsvReader.Read, hin1]
        have e2 : parser.Read fl (some tt) p2 (seeds2.headD 0) = (.err .EOF, p2) := by
          simp only [List.map_nil] at hin2
          simp [parser.Read, CsvReader.Read, hin2]
        rw [readAllLoop_EOF fl _ fuel1 p1 p1 seeds1 objects e1,
          readAllLoop_EOF fl _ fuel2 p2 p2 seeds2 objects e2]
  | cons row rows ih =>
    cases fuel1 with
    | zero => simp at hf1
    | succ fuel1 =>
      cases fuel2 with
      | zero => simp at hf2
      | succ fuel2 =>
        have r1 := Read_record fl (some tt) p1 (seeds1.headD 0) row (rows.map Event.record)
          (by simpa using hin1) (hlen1 row (by simp)) hpos1
        have r2 := Read_record fl (some tt) p2 (seeds2.headD 0) (π row)
          ((rows.map π).map Event.record) (by simpa using hin2) (hlen2 row (by simp)) hpos2
        have hr := hrel row (by simp) (seeds1.headD 0) (seeds2.headD 0)
        have hne : ∀ (r : List String) (es : List (String × Nat)),
            decodeRow fl (some tt) r es (zeroOf (some tt)) ≠ .err .EOF := by
          intro r es heq
          obtain ⟨msg, hmsg⟩ := decodeRow_err_errorf fl tt hk r es _ _ heq
          exact Error.noConfusion hmsg
        cases ho1 : decodeRow fl (some tt) row (rangeOrder (seeds1.headD 0) p1.header)
            (zeroOf (some tt)) with
        | ok v =>
          rw [ho1] at hr r1
          cases ho2 : decodeRow fl (some tt) (π row) (rangeOrder (seeds2.headD 0) p2.header)
              (zeroOf (some tt)) with
          | ok v2 =>
            rw [ho2] at hr r2
            simp only [Outcome.records, Option.some.injEq] at hr
            subst hr
            rw [readAllLoop_ok fl _ fuel1 p1 _ seeds1 objects _ r1,
              readAllLoop_ok fl _ fuel2 p2 _ seeds2 objects _ r2]
            exact ih fuel1 fuel2
              { p1 with reader := { p1.reader with input := some (rows.map Event.record) } }
              { p2 with reader := { p2.reader with input := some ((rows.map π).map Event.record) } }
              seeds1.tail seeds2.tail (objects ++ [v]) rfl rfl hpos1 hpos2
              (fun r hr => hlen1 r (List.mem_cons_of_mem _ hr))
              (fun r hr => hlen2 r (List.mem_cons_of_mem _ hr))
              (fun r hr => hrel r (List.mem_cons_of_mem _ hr))
              (by simpa using hf1) (by simpa using hf2)
          | err e => rw [ho2] at hr; simp [Outcome.records] at hr
          | panic q => rw [ho2] at hr; simp [Outcome.records] at hr
        | err e =>
          have hn1 : (decodeRow fl (some tt) row (rangeOrder (seeds1.headD 0) p1.header)
              (zeroOf (some tt))).records = none := by rw [ho1]; rfl
          rw [(readAllLoop_first_fails fl _ fuel1 p1 _ seeds1 objects _ r1 (hne _ _) hn1).1,
            (readAllLoop_first_fails fl _ fuel2 p2 _ seeds2 objects _ r2 (hne _ _)
              (by rw [← hr]; exact hn1)).1]
        | panic q =>
          have hn1 : (decodeRow fl (some tt) row (rangeOrder (seeds1.headD 0) p1.header)
              (zeroOf (some tt))).records = none := by rw [ho1]; rfl
          rw [(readAllLoop_first_fails fl _ fuel1 p1 _ seeds1 objects _ r1 (hne _ _) hn1).1,
            (readAllLoop_first_fails fl _ fuel2 p2 _ seeds2 objects _ r2 (hne _ _)
              (by rw [← hr]; exact hn1)).1]

/-- C5, counterexample: with the field `A` and the header `a,a`, exchanging the two columns
leaves the header as it is and changes the record decoded from the row `1,2`. -/
theorem permuted_duplicate_header :
    (NewParser (some oneString) (some [.record ["a", "a"], .record ["1", "2"]]) []).records.isSome
      = true ∧
    Parse noFloats (some oneString) (some [.record ["a", "a"], .record ["1", "2"]]) [] [] =
      .ok [[("A", .string "1")]] ∧
    Parse noFloats (some oneString)
      (some [.record (permuteCols [1, 0] ["a", "a"]), .record (permuteCols [1, 0] ["1", "2"])])
      [] [] = .ok [[("A", .string "2")]] := by
  refine ⟨rfl, ?_, ?_⟩ <;> decide

/-- C5, amended: when construction succeeds on the original header, the transformed header
names are pairwise distinct and the data rows have the header's length, then parsing the
header and the rows with their columns permuted alike returns the same records in the same
order as parsing the original input (and fails when the original fails), whatever the orders
in which the two bindings are ranged over. -/
theorem Parse_permute_columns (fl : FloatLib) (tt : RType) (hdr : List String)
    (rows : List (List String)) (opts : List ParseOption) (σ : List Nat)
    (seeds1 seeds2 : List Nat) (p : parser)
    (hσ : σ.Perm (List.range hdr.length))
    (hnew : NewParser (some tt) (some (.record hdr :: rows.map Event.record)) opts = .ok p)
    (hnd : (getHeader (getOptions opts) hdr).Nodup)
    (hlen : ∀ row ∈ rows, row.length = hdr.length) :
    (Parse fl (some tt)
      (some (.record (permuteCols σ hdr) :: (rows.map (permuteCols σ)).map Event.record))
      opts seeds2).records =
    (Parse fl (some tt) (some (.record hdr :: rows.map Event.record)) opts seeds1).records := by
  obtain ⟨hk, hfields, hmap, hfpr, hinp⟩ := NewParser_ok tt hdr _ opts p hnew
  rw [hfields] at hmap
  have hσlt : ∀ i ∈ σ, i < hdr.length := fun i hi => by simpa using hσ.subset hi
  have hhl := getHeader_length (getOptions opts) hdr
  have hh1 := getHeader_permuteCols (getOptions opts) σ hdr hσlt
  generalize getHeader (getOptions opts) hdr = h at hmap hnd hhl hh1
  obtain ⟨hnames, hall, hback, hm⟩ := (mapHeader_ok_iff _ _ _).1 hmap
  have hperm := permuteCols_perm σ h (by rw [hhl]; exact hσ)
  have hmap1 := (mapHeader_ok_iff (tt.VisibleFields.filter (·.IsExported))
    (permuteCols σ h) _).2
    ⟨hnames, fun f hf => hperm.symm.subset (hall f hf),
      fun s hs => hback s (hperm.subset hs), rfl⟩
  have hne : tt.VisibleFields.filter (·.IsExported) ≠ [] := by
    intro h0
    by_cases hv : tt.VisibleFields = [] <;>
      simp [NewParser, getFields_struct tt hk, h0, hv] at hnew
  have hnew1 := NewParser_of_mapHeader tt (permuteCols σ hdr)
    ((rows.map (permuteCols σ)).map Event.record) opts _ hk hne (by rw [hh1]; exact hmap1)
  have hlenσ : ∀ l : List String, (permuteCols σ l).length = hdr.length := by
    intro l
    simp [permuteCols, hσ.length_eq]
  have hpos : 0 < hdr.length := by
    obtain ⟨F, hF⟩ := List.exists_mem_of_ne_nil _ hne
    rw [← hhl]
    exact List.length_pos_of_mem (hall F hF)
  have hrel : ∀ row ∈ rows, ∀ s1 s2,
      (decodeRow fl (some tt) row (rangeOrder s1 p.header) (zeroOf (some tt))).records =
      (decodeRow fl (some tt) (permuteCols σ row)
        (rangeOrder s2 ((tt.VisibleFields.filter (·.IsExported)).map
          (fun f => (f.Name, (permuteCols σ h).indexOf f.Name))))
        (zeroOf (some tt))).records := by
    intro row hrow s1 s2
    apply decodeRow_records_congr fl tt hk row (permuteCols σ row)
      (tt.VisibleFields.filter (·.IsExported)) (fun F => h.indexOf F.Name)
      (fun F => (permuteCols σ h).indexOf F.Name) hnames
    · intro F hF
      exact (permuteCols_cell σ h row F.Name (by rw [hhl]; exact hσ) hnd
        ((hlen row hrow).trans hhl.symm) (hall F hF)).symm
    · rw [hm]
      exact rangeOrder_perm s1 _
    · exact rangeOrder_perm s2 _
  simp only [Parse, hnew, hnew1]
  rw [ReadAll_eq fl (some tt) p seeds1 _ hinp, ReadAll_eq fl (some tt) _ seeds2 _ rfl]
  exact (readAllLoop_rel fl tt hk (permuteCols σ) rows _ _ p _ seeds1 seeds2 [] hinp rfl
    (by rw [hfpr]; exact hpos) (by show 0 < (permuteCols σ hdr).length; rw [hlenσ]; exact hpos)
    (fun row hrow => by rw [hfpr]; exact hlen row hrow)
    (fun row _ => by show _ = (permuteCols σ hdr).length; rw [hlenσ, hlenσ])
    hrel (by simp) (by simp)).symm

theorem Parse_permute_columns_witness :
    (Parse noFloats (some simpleObj)
      (some (.record (permuteCols [2, 0, 1] ["ident", "name", "other_thing"]) ::
        ([["1", "foo", "bar"], ["2", "bar", "baz"]].map (permuteCols [2, 0, 1])).map
          Event.record)) [] [5, 1]).records =
    (Parse noFloats (some simpleObj)
      (some (.record ["ident", "name", "other_thing"] ::
        [["1", "foo", "bar"], ["2", "bar", "baz"]].map Event.record)) [] [2, 3]).records :=
  Parse_permute_columns noFloats simpleObj ["ident", "name", "other_thing"]
    [["1", "foo", "bar"], ["2", "bar", "baz"]] [] [2, 0, 1] [2, 3] [5, 1]
    { opts := getOptions [],
      reader := { FieldsPerRecord := 3,
                  input := some ([["1", "foo", "bar"], ["2", "bar", "baz"]].map Event.record) },
      fields := simpleObj.VisibleFields.filter (·.IsExported),
      header := [("Ident", 0), ("Name", 1), ("OtherThing", 2)] }
    (List.Perm.trans (List.Perm.swap 0 2 [1]) ((List.Perm.swap 1 2 []).cons 0))
    rfl (by decide) (by decide)

/-! ## The header transformer -/

/-- C13: `getHeader` returns a list of the same length whose `i`-th element is the transform
of the `i`-th header, the transform being the custom one when set (whatever the mode),
otherwise `snakeToTitle` in snake mode, otherwise the identity; no header is reordered or
dropped. -/
theorem getHeader_map (o : options) (header : List String) :
    getHeader o header = header.map (headerTransform o) ∧
    (getHeader o header).length = header.length ∧
    (∀ i, (getHeader o header).get? i = (header.get? i).map (headerTransform o)) ∧
    (∀ fn, o.HeaderTransform = some fn → getHeader o header = header.map fn) ∧
    (o.HeaderTransform = none → o.HeaderType = HeaderTypeSnake →
      getHeader o header = header.map snakeToTitle) ∧
    (o.HeaderTransform = none → o.HeaderType ≠ HeaderTypeSnake → getHeader o header = header) := by
  have h1 : getHeader o header = header.map (headerTransform o) := by
    unfold getHeader headerTransform
    cases o.HeaderTransform with
    | some fn => simp [remap_eq_map]
    | none =>
      by_cases hs : o.HeaderType = HeaderTypeSnake
      · simp [hs, remap_eq_map]
      · simp [hs]
  refine ⟨h1, by rw [h1, List.length_map], ?_, ?_, ?_, ?_⟩
  · intro i
    rw [h1]
    simp [List.get?_eq_getElem?]
  · intro fn hfn
    rw [h1]
    simp [headerTransform, hfn]
  · intro hn hs
    rw [h1]
    simp [headerTransform, hn, hs]
  · intro hn hs
    rw [h1]
    simp [headerTransform, hn, hs]

theorem splitUnderscore_parts (cs : List Char) :
    ∀ part ∈ splitUnderscore cs, ∀ c ∈ part, c ∈ cs ∧ c ≠ '_' := by
  induction cs with
  | nil => simp [splitUnderscore]
  | cons a rest ih =>
    intro part hpart c hc
    by_cases ha : a = '_'
    · simp only [splitUnderscore, ha, if_true, List.mem_cons] at hpart
      rcases hpart with h | h
      · subst h; simp at hc
      · exact ⟨List.mem_cons_of_mem _ (ih part h c hc).1, (ih part h c hc).2⟩
    · simp only [splitUnderscore, ha, if_false] at hpart
      cases hs : splitUnderscore rest with
      | nil =>
        rw [hs] at hpart
        simp only [List.mem_singleton] at hpart
        subst hpart
        simp only [List.mem_singleton] at hc
        subst hc
        exact ⟨by simp, ha⟩
      | cons p ps =>
        rw [hs] at hpart ih
        simp only [List.mem_cons] at hpart
        rcases hpart with h | h
        · subst h
          rcases List.mem_cons.1 hc with h1 | h1
          · subst h1; exact ⟨by simp, ha⟩
          · have := ih p (by simp) c h1
            exact ⟨List.mem_cons_of_mem _ this.1, this.2⟩
        · have := ih part (List.mem_cons_of_mem _ h) c hc
          exact ⟨List.mem_cons_of_mem _ this.1, this.2⟩

theorem splitUnderscore_join (cs : List Char) :
    ['_'].intercalate (splitUnderscore cs) = cs := by
  induction cs with
  | nil => simp [splitUnderscore, List.intercalate]
  | cons a rest ih =>
    by_cases ha : a = '_'
    · have hne : splitUnderscore rest ≠ [] := by
        cases rest with
        | nil => simp [splitUnderscore]
        | cons b r =>
          simp only [splitUnderscore]
          split
          · simp
          · split <;> simp
      obtain ⟨p, ps, hps⟩ := List.exists_cons_of_ne_nil hne
      simp only [splitUnderscore, ha, if_true]
      rw [hps] at ih ⊢
      simp only [List.intercalate, List.intersperse, List.flatten] at ih ⊢
      simp [ih]
    · simp only [splitUnderscore, ha, if_false]
      cases hs : splitUnderscore rest with
      | nil =>
        rw [hs] at ih
        simp [List.intercalate] at ih
        simp [List.intercalate, ← ih]
      | cons p ps =>
        rw [hs] at ih
        cases ps with
        | nil =>
          simp [List.intercalate] at ih ⊢
          exact ih
        | cons q qs =>
          simp [List.intercalate] at ih ⊢
          exact ih

theorem toLower_of_not_alpha (c : Char) (h : c.isAlpha = false) : c.toLower = c := by
  have hu : c.isUpper = false := by
    simp only [Char.isAlpha, Bool.or_eq_false_iff] at h
    exact h.1
  simp only [Char.isUpper, Bool.and_eq_false_imp, ge_iff_le, decide_eq_true_eq,
    decide_eq_false_iff_not] at hu
  unfold Char.toLower
  simp only [ge_iff_le]
  split
  · rename_i hc
    exfalso
    have h1 : (65 : UInt32) ≤ c.val := by
      rw [UInt32.le_def]
      exact hc.1
    have h2 := hu h1
    apply h2
    rw [UInt32.le_def]
    exact hc.2
  · rfl

theorem titleRunes_mid (cs : List Char) (h : ∀ c ∈ cs, c.isAlphanum = true) :
    titleRunes true cs = cs.map Char.toLower := by
  induction cs with
  | nil => rfl
  | cons c rest ih =>
    have hr := ih (fun x hx => h x (List.mem_cons_of_mem _ hx))
    by_cases hc : c.isAlpha = true
    · simp [titleRunes, isCased, hc, hr]
    · have hc2 : c.isAlpha = false := by simpa using hc
      have hw : isWordRune c = true := by simp [isWordRune, h c (by simp)]
      simp [titleRunes, isCased, hc2, hw, hr, toLower_of_not_alpha c hc2]

theorem titleRunes_part (cs : List Char) (h : ∀ c ∈ cs, c.isAlphanum = true) :
    titleRunes false cs = capitalizePart cs := by
  induction cs with
  | nil => rfl
  | cons c rest ih =>
    have hrest : ∀ x ∈ rest, x.isAlphanum = true := fun x hx => h x (List.mem_cons_of_mem _ hx)
    by_cases hc : c.isAlpha = true
    · simp [titleRunes, capitalizePart, isCased, hc, titleRunes_mid rest hrest]
    · have hc2 : c.isAlpha = false := by simpa using hc
      simp [titleRunes, capitalizePart, isCased, hc2, ih hrest]

/-- C12: without options the mode is snake-to-title and no custom transform is set, so every
header goes through `snakeToTitle`; on a header of ASCII letters, digits and underscores
`snakeToTitle` returns the concatenation, with no separator, of the parts between the
underscores, each with its first letter upper-cased and its remaining letters lower-cased;
`other_thing` becomes `OtherThing`, `ident` becomes `Ident`, `int_8` becomes `Int8` and
`OtherThing` becomes `Otherthing`. -/
theorem snakeToTitle_spec :
    (getOptions []).HeaderType = HeaderTypeSnake ∧
    (getOptions []).HeaderTransform.isNone = true ∧
    (∀ header, getHeader (getOptions []) header = header.map snakeToTitle) ∧
    (∀ s : String, (∀ c ∈ s.data, c.isAlphanum = true ∨ c = '_') →
      snakeToTitle s = String.mk ((splitUnderscore s.data).map capitalizePart).flatten ∧
      ['_'].intercalate (splitUnderscore s.data) = s.data ∧
      ∀ part ∈ splitUnderscore s.data, '_' ∉ part) ∧
    snakeToTitle "other_thing" = "OtherThing" ∧ snakeToTitle "ident" = "Ident" ∧
    snakeToTitle "int_8" = "Int8" ∧ snakeToTitle "OtherThing" = "Otherthing" ∧
    snakeToTitle "OtherThing" ≠ "OtherThing" := by
  refine ⟨rfl, rfl, ?_, ?_, by decide, by decide, by decide, by decide, by decide⟩
  · intro header
    simp [getHeader, getOptions, remap_eq_map]
  · intro s hs
    refine ⟨?_, splitUnderscore_join s.data, ?_⟩
    · have hmap : (splitUnderscore s.data).foldl
          (fun cleaned part => cleaned ++ [titleRunes false part]) [] =
          (splitUnderscore s.data).map (titleRunes false) :=
        remap_eq_map (splitUnderscore s.data) (titleRunes false)
      simp only [snakeToTitle, hmap]
      congr 2
      apply List.map_congr_left
      intro part hpart
      apply titleRunes_part
      intro c hc
      obtain ⟨h1, h2⟩ := splitUnderscore_parts s.data part hpart c hc
      rcases hs c h1 with h | h
      · exact h
      · exact absurd h h2
    · intro part hpart hmem
      exact (splitUnderscore_parts s.data part hpart '_' hmem).2 rfl

theorem snakeToTitle_spec_witness :
    snakeToTitle "uint_16" = String.mk ((splitUnderscore "uint_16".data).map capitalizePart).flatten :=
  (snakeToTitle_spec.2.2.2.1 "uint_16" (by decide)).1

/-! ## First match, and kinds at construction -/

theorem get?_ne_of_lt_indexOf (l : List String) (a : String) (j : Nat) (h : j < l.indexOf a) :
    l.get? j ≠ some a := by
  induction l generalizing j with
  | nil => simp
  | cons b rest ih =>
    by_cases hb : b = a
    · subst hb
      simp at h
    · rw [List.indexOf_cons_ne _ hb] at h
      cases j with
      | zero =>
        simp only [List.get?_cons_zero, ne_eq, Option.some.injEq]
        exact hb
      | succ k =>
        simp only [List.get?_cons_succ]
        exact ih k (by omega)

theorem mapHeader_ok_fieldLoop (fields : List StructField) (header : List String) (m : GoMap)
    (h : mapHeader fields header = .ok m) : m = (fieldLoop header fields [] []).1 := by
  rw [mapHeader_eq] at h
  split at h
  · exact Outcome.noConfusion h
  · injection h with h
    exact h.symm

/-- C16: when `mapHeader` succeeds, the index bound to the name of each field is the least
position at which the header equals that name (string equality), so a name that occurs more
than once is bound at its first occurrence. -/
theorem mapHeader_first_match (fields : List StructField) (header : List String) (m : GoMap)
    (h : mapHeader fields header = .ok m) :
    ∀ F ∈ fields, ∃ i, m.get? F.Name = some i ∧ header.get? i = some F.Name ∧
      ∀ j, j < i → header.get? j ≠ some F.Name := by
  intro F hF
  obtain ⟨_, hall, _, _⟩ := (mapHeader_ok_iff fields header m).1 h
  have hm := mapHeader_ok_fieldLoop fields header m h
  refine ⟨header.indexOf F.Name, ?_, List.indexOf_get? (hall F hF),
    fun j hj => get?_ne_of_lt_indexOf header F.Name j hj⟩
  rw [hm, fieldLoop_get?]
  have : F.Name ∈ fields.map (·.Name) ∧ F.Name ∈ header :=
    ⟨List.mem_map_of_mem _ hF, hall F hF⟩
  rw [if_pos this]

theorem mapHeader_first_match_witness :
    ∃ i, GoMap.get? [("A", 1), ("B", 0)] fieldA.Name = some i ∧
      ["B", "A", "A"].get? i = some fieldA.Name ∧
      ∀ j, j < i → ["B", "A", "A"].get? j ≠ some fieldA.Name :=
  mapHeader_first_match [fieldA, fieldB] ["B", "A", "A"] [("A", 1), ("B", 0)] (by decide)
    fieldA (by decide)

/-- Construction succeeds on a header whose transformed names are the exported names. -/
theorem NewParser_of_perm (tt : RType) (hdr : List String) (evs : List Event)
    (opts : List ParseOption) (hk : tt.Kind = Kind.Struct)
    (hne : tt.VisibleFields.filter (·.IsExported) ≠ [])
    (hnd : ((tt.VisibleFields.filter (·.IsExported)).map (·.Name)).Nodup)
    (hperm : (getHeader (getOptions opts) hdr).Perm
      ((tt.VisibleFields.filter (·.IsExported)).map (·.Name))) :
    NewParser (some tt) (some (.record hdr :: evs)) opts =
      .ok { opts := getOptions opts,
            reader := { FieldsPerRecord := hdr.length, input := some evs },
            fields := tt.VisibleFields.filter (·.IsExported),
            header := (tt.VisibleFields.filter (·.IsExported)).map
              (fun f => (f.Name, (getHeader (getOptions opts) hdr).indexOf f.Name)) } := by
  apply NewParser_of_mapHeader tt hdr evs opts _ hk hne
  exact (mapHeader_ok_iff _ _ _).2
    ⟨hnd, fun F hF => hperm.symm.subset (List.mem_map_of_mem _ hF),
      fun s hs => hperm.subset hs, rfl⟩

/-- C20: the kinds of the fields are not looked at by construction. For a struct whose
exported field names are the transformed header names, `NewParser` succeeds whatever the kinds
of the fields are, and on an input of a header row and no data row `Parse` returns an empty
result and no error. -/
theorem kinds_checked_when_decoding (fl : FloatLib) (tt : RType) (hdr : List String)
    (opts : List ParseOption) (seeds : List Nat) (hk : tt.Kind = Kind.Struct)
    (hne : tt.VisibleFields.filter (·.IsExported) ≠ [])
    (hnd : ((tt.VisibleFields.filter (·.IsExported)).map (·.Name)).Nodup)
    (hperm : (getHeader (getOptions opts) hdr).Perm
      ((tt.VisibleFields.filter (·.IsExported)).map (·.Name))) :
    (∀ evs, ∃ p, NewParser (some tt) (some (.record hdr :: evs)) opts = .ok p) ∧
    Parse fl (some tt) (some [.record hdr]) opts seeds = .ok [] := by
  refine ⟨fun evs => ⟨_, NewParser_of_perm tt hdr evs opts hk hne hnd hperm⟩, ?_⟩
  simp only [Parse, NewParser_of_perm tt hdr [] opts hk hne hnd hperm]
  rw [ReadAll_eq fl (some tt) _ seeds [] rfl]
  simp [readAllLoop, parser.Read, CsvReader.Read]

theorem kinds_checked_when_decoding_witness :
    (∀ evs, ∃ p, NewParser (some withSlice) (some (.record ["b", "a"] :: evs)) [] = .ok p) ∧
    Parse noFloats (some withSlice) (some [.record ["b", "a"]]) [] [] = .ok [] :=
  kinds_checked_when_decoding noFloats withSlice ["b", "a"] [] [] rfl (by decide) (by decide)
    (List.Perm.swap "A" "B" [])

/-! ## Order of the passes -/

theorem decodeRow_ok_inv (fl : FloatLib) (tt : RType) (hk : tt.Kind = Kind.Struct)
    (row : List String) (es : List (String × Nat)) (obj r : Record)
    (h : decodeRow fl (some tt) row es obj = .ok r) :
    ∀ e ∈ es, cellOutcome fl tt row e.1 e.2 = .ok (storedValue fl tt row e) := by
  intro e he
  cases hc : cellOutcome fl tt row e.1 e.2 with
  | ok v => simp only [storedValue, hc]
  | err x =>
    have := decodeRow_fails fl tt hk row es obj e he (by rw [hc]; rfl)
    rw [h] at this
    simp [Outcome.records] at this
  | panic q =>
    have := decodeRow_fails fl tt hk row es obj e he (by rw [hc]; rfl)
    rw [h] at this
    simp [Outcome.records] at this

theorem decodeRow_panic (fl : FloatLib) (tt : RType) (hk : tt.Kind = Kind.Struct)
    (row : List String) (es : List (String × Nat)) (obj : Record) (e0 : String × Nat)
    (q : Panic) (hmem : e0 ∈ es) (hx : cellOutcome fl tt row e0.1 e0.2 = .panic q)
    (hothers : ∀ e ∈ es, e ≠ e0 → ∃ v, cellOutcome fl tt row e.1 e.2 = .ok v) :
    decodeRow fl (some tt) row es obj = .panic q := by
  induction es generalizing obj with
  | nil => simp at hmem
  | cons e rest ih =>
    obtain ⟨f, i⟩ := e
    by_cases he : (f, i) = e0
    · subst he
      simp only [decodeRow, decodeField_eq fl tt hk, hx]
    · obtain ⟨v, hv⟩ := hothers (f, i) (by simp) he
      simp only [decodeRow, decodeField_eq fl tt hk, hv]
      apply ih
      · rcases List.mem_cons.1 hmem with h | h
        · exact absurd h.symm he
        · exact h
      · exact fun e h1 h2 => hothers e (List.mem_cons_of_mem _ h1) h2

/-- When every entry decodes, the record is the one obtained by storing the entries in the
order of the binding, whatever the order of the passes. -/
theorem decodeRow_all_ok (fl : FloatLib) (tt : RType) (hk : tt.Kind = Kind.Struct)
    (row : List String) (m es : List (String × Nat)) (obj : Record)
    (hnd : (m.map Prod.fst).Nodup) (hp : es.Perm m)
    (hall : ∀ e ∈ m, ∃ v, cellOutcome fl tt row e.1 e.2 = .ok v) :
    decodeRow fl (some tt) row es obj =
      .ok (m.foldl (fun o e => o.set e.1 (storedValue fl tt row e)) obj) := by
  rw [decodeRow_ok fl tt hk row (storedValue fl tt row) es obj]
  · congr 1
    exact foldl_set_perm _ es m ((hp.map Prod.fst).nodup_iff.2 hnd) hp obj
  · intro e he
    obtain ⟨v, hv⟩ := hall e (hp.subset he)
    simp only [storedValue, hv]

theorem decodeRow_records_perm (fl : FloatLib) (tt : RType) (hk : tt.Kind = Kind.Struct)
    (row : List String) (m es1 es2 : List (String × Nat)) (obj : Record)
    (hnd : (m.map Prod.fst).Nodup) (h1 : es1.Perm m) (h2 : es2.Perm m) :
    (decodeRow fl (some tt) row es1 obj).records =
      (decodeRow fl (some tt) row es2 obj).records := by
  by_cases hall : ∀ e ∈ m, ∃ v, cellOutcome fl tt row e.1 e.2 = .ok v
  · rw [decodeRow_all_ok fl tt hk row m es1 obj hnd h1 hall,
      decodeRow_all_ok fl tt hk row m es2 obj hnd h2 hall]
  · simp only [not_forall] at hall
    obtain ⟨e, he, hno⟩ := hall
    have hnone : (cellOutcome fl tt row e.1 e.2).records = none := by
      cases hco : cellOutcome fl tt row e.1 e.2 with
      | ok v => exact absurd ⟨v, hco⟩ hno
      | err x => rfl
      | panic q => rfl
    rw [decodeRow_fails fl tt hk row es1 obj e (h1.symm.subset he) hnone,
      decodeRow_fails fl tt hk row es2 obj e (h2.symm.subset he) hnone]

/-- C17: the order in which `Read` visits the entries of the binding does not affect the
record. For a binding (keys pairwise distinct), a row and two enumerations of the entries
under which decoding succeeds, the two records are equal, field by field; every bound field
holds the value computed from its own cell and every other field is left as it was. The same
holds of two calls of `Read` that range over the binding in different orders. -/
theorem Read_order_independent (fl : FloatLib) (tt : RType) (p : parser)
    (hk : tt.Kind = Kind.Struct) (hnd : (p.header.map Prod.fst).Nodup) :
    (∀ (row : List String) (es1 es2 : List (String × Nat)) (obj r1 r2 : Record),
      es1.Perm p.header → es2.Perm p.header →
      decodeRow fl (some tt) row es1 obj = .ok r1 →
      decodeRow fl (some tt) row es2 obj = .ok r2 →
      r1 = r2 ∧ (∀ name, r1.get name = r2.get name) ∧
      (∀ e ∈ p.header, r1.get e.1 = (obj.get e.1).map (fun _ => storedValue fl tt row e)) ∧
      (∀ name, name ∉ p.header.map Prod.fst → r1.get name = obj.get name)) ∧
    (∀ seed1 seed2 r1 r2, (parser.Read fl (some tt) p seed1).1 = .ok r1 →
      (parser.Read fl (some tt) p seed2).1 = .ok r2 → r1 = r2) := by
  have key : ∀ (row : List String) (es1 es2 : List (String × Nat)) (obj r1 r2 : Record),
      es1.Perm p.header → es2.Perm p.header →
      decodeRow fl (some tt) row es1 obj = .ok r1 →
      decodeRow fl (some tt) row es2 obj = .ok r2 →
      r1 = r2 ∧ r1 = p.header.foldl (fun o e => o.set e.1 (storedValue fl tt row e)) obj := by
    intro row es1 es2 obj r1 r2 h1 h2 hr1 hr2
    have hall : ∀ e ∈ p.header, ∃ v, cellOutcome fl tt row e.1 e.2 = .ok v :=
      fun e he => ⟨_, decodeRow_ok_inv fl tt hk row es1 obj r1 hr1 e (h1.symm.subset he)⟩
    rw [decodeRow_all_ok fl tt hk row p.header es1 obj hnd h1 hall] at hr1
    rw [decodeRow_all_ok fl tt hk row p.header es2 obj hnd h2 hall] at hr2
    injection hr1 with hr1
    injection hr2 with hr2
    exact ⟨hr1.symm.trans hr2, hr1.symm⟩
  refine ⟨?_, ?_⟩
  · intro row es1 es2 obj r1 r2 h1 h2 hr1 hr2
    obtain ⟨heq, hfold⟩ := key row es1 es2 obj r1 r2 h1 h2 hr1 hr2
    refine ⟨heq, fun name => by rw [heq], ?_, ?_⟩
    · intro e he
      rw [hfold]
      exact foldl_set_get _ p.header hnd obj e he
    · intro name hname
      rw [hfold]
      exact foldl_set_get_other _ p.header obj name hname
  · intro seed1 seed2 r1 r2 hr1 hr2
    unfold parser.Read at hr1 hr2
    cases hrd : p.reader.Read with
    | mk o r =>
      rw [hrd] at hr1 hr2
      cases o with
      | err e => exact Outcome.noConfusion hr1
      | panic q => exact Outcome.noConfusion hr1
      | ok row =>
        simp only [] at hr1 hr2
        exact (key row _ _ _ r1 r2 (rangeOrder_perm seed1 _) (rangeOrder_perm seed2 _)
          hr1 hr2).1

theorem Read_order_independent_witness :
    (parser.Read noFloats (some simpleObj) simpleParser 0).1 =
      .ok [("Ident", .int 1), ("Name", .string "foo"), ("OtherThing", .string "bar"),
        ("hiddenFieldsAreIgnored", .uint 0)] ∧
    (parser.Read noFloats (some simpleObj) simpleParser 5).1 =
      .ok [("Ident", .int 1), ("Name", .string "foo"), ("OtherThing", .string "bar"),
        ("hiddenFieldsAreIgnored", .uint 0)] ∧
    ([("Ident", .int 1), ("Name", .string "foo"), ("OtherThing", .string "bar"),
        ("hiddenFieldsAreIgnored", .uint 0)] : Record) =
      [("Ident", .int 1), ("Name", .string "foo"), ("OtherThing", .string "bar"),
        ("hiddenFieldsAreIgnored", .uint 0)] :=
  ⟨by decide, by decide,
    (Read_order_independent noFloats simpleObj simpleParser rfl (by decide)).2 0 5 _ _
      (by decide) (by decide)⟩

/-- C19, counterexample: with `struct { A int; B int }` and the row `x,y`, in which both
cells fail to convert, `Read` returns the error of `A` under one order of the binding and the
error of `B` under the other. -/
theorem Read_error_depends_on_order :
    (parser.Read noFloats (some twoInts) twoIntsParser 0).1 =
      .err (.errorf "failed to convert \"x\" to int") ∧
    (parser.Read noFloats (some twoInts) twoIntsParser 1).1 =
      .err (.errorf "failed to convert \"y\" to int") ∧
    (rangeOrder 0 twoIntsParser.header).Perm twoIntsParser.header ∧
    (rangeOrder 1 twoIntsParser.header).Perm twoIntsParser.header := by
  refine ⟨by decide, by decide, rangeOrder_perm _ _, rangeOrder_perm _ _⟩

/-- C19, amended: under any two enumerations of the binding (keys pairwise distinct), decoding
a row either returns the same record under both or fails under both, and when at most one
entry of the binding fails to decode the two outcomes are the same, error included; the same
holds of two calls of `Read` that range over the binding in different orders. -/
theorem Read_deterministic (fl : FloatLib) (tt : RType) (p : parser)
    (hk : tt.Kind = Kind.Struct) (hnd : (p.header.map Prod.fst).Nodup) :
    (∀ (row : List String) (es1 es2 : List (String × Nat)) (obj : Record),
      es1.Perm p.header → es2.Perm p.header →
      (decodeRow fl (some tt) row es1 obj).records =
        (decodeRow fl (some tt) row es2 obj).records ∧
      (∀ e0 ∈ p.header,
        (∀ e ∈ p.header, e ≠ e0 →
          ∀ o, ∃ o1, decodeField fl (some tt) row o e.1 e.2 = .ok o1) →
        decodeRow fl (some tt) row es1 obj = decodeRow fl (some tt) row es2 obj)) ∧
    (∀ seed1 seed2,
      (parser.Read fl (some tt) p seed1).1.records =
        (parser.Read fl (some tt) p seed2).1.records ∧
      (parser.Read fl (some tt) p seed1).2 = (parser.Read fl (some tt) p seed2).2) := by
  have key : ∀ (row : List String) (es1 es2 : List (String × Nat)) (obj : Record),
      es1.Perm p.header → es2.Perm p.header →
      (decodeRow fl (some tt) row es1 obj).records =
        (decodeRow fl (some tt) row es2 obj).records :=
    fun row es1 es2 obj h1 h2 => decodeRow_records_perm fl tt hk row p.header es1 es2 obj hnd h1 h2
  refine ⟨?_, ?_⟩
  · intro row es1 es2 obj h1 h2
    refine ⟨key row es1 es2 obj h1 h2, ?_⟩
    intro e0 he0 hothers
    have hoth : ∀ es : List (String × Nat), es.Perm p.header →
        ∀ e ∈ es, e ≠ e0 → ∃ v, cellOutcome fl tt row e.1 e.2 = .ok v := by
      intro es hes e he hne
      obtain ⟨o1, ho1⟩ := hothers e (hes.subset he) hne []
      exact cellOutcome_ok_of_decodeField fl tt hk row [] o1 e.1 e.2 ho1
    cases hc : cellOutcome fl tt row e0.1 e0.2 with
    | ok v =>
      have hall : ∀ e ∈ p.header, ∃ v, cellOutcome fl tt row e.1 e.2 = .ok v := by
        intro e he
        by_cases hee : e = e0
        · subst hee; exact ⟨v, hc⟩
        · exact hoth p.header (List.Perm.refl _) e he hee
      rw [decodeRow_all_ok fl tt hk row p.header es1 obj hnd h1 hall,
        decodeRow_all_ok fl tt hk row p.header es2 obj hnd h2 hall]
    | err x =>
      rw [decodeRow_err fl tt hk row es1 obj e0 x (h1.symm.subset he0) hc (hoth es1 h1),
        decodeRow_err fl tt hk row es2 obj e0 x (h2.symm.subset he0) hc (hoth es2 h2)]
    | panic q =>
      rw [decodeRow_panic fl tt hk row es1 obj e0 q (h1.symm.subset he0) hc (hoth es1 h1),
        decodeRow_panic fl tt hk row es2 obj e0 q (h2.symm.subset he0) hc (hoth es2 h2)]
  · intro seed1 seed2
    unfold parser.Read
    cases hrd : p.reader.Read with
    | mk o r =>
      cases o with
      | err e => exact ⟨rfl, rfl⟩
      | panic q => exact ⟨rfl, rfl⟩
      | ok row =>
        exact ⟨key row _ _ _ (rangeOrder_perm seed1 _) (rangeOrder_perm seed2 _), rfl⟩

theorem Read_deterministic_witness :
    (parser.Read noFloats (some twoInts) twoIntsParser 0).1.records =
      (parser.Read noFloats (some twoInts) twoIntsParser 1).1.records :=
  ((Read_deterministic noFloats twoInts twoIntsParser rfl (by decide)).2 0 1).1

/-! ## Fields that are not exported -/

theorem unexportedZero_zeroRecord (fields : List StructField) :
    unexportedZero fields (zeroRecord fields) := by
  induction fields with
  | nil => exact List.Forall₂.nil
  | cons f fs ih => exact List.Forall₂.cons ⟨rfl, fun _ => rfl⟩ ih

theorem unexportedZero_set (fields : List StructField) (rec : Record) (name : String)
    (field : StructField) (v : Value) (h : unexportedZero fields rec)
    (hf : FieldByName fields name = some field) (hex : field.IsExported = true) :
    unexportedZero fields (rec.set name v) := by
  unfold unexportedZero at h ⊢
  induction h with
  | nil => exact List.Forall₂.nil
  | @cons F e fs rest hhead htail ih =>
    obtain ⟨n, w⟩ := e
    simp only at hhead
    by_cases hn : F.Name = name
    · simp only [FieldByName, hn, if_true, Option.some.injEq] at hf
      subst hf
      have hn2 : n = name := hhead.1.trans hn
      simp only [Record.set, hn2, if_true]
      refine List.Forall₂.cons ⟨hn.symm, fun hne => ?_⟩ htail
      rw [hex] at hne
      exact Bool.noConfusion hne
    · simp only [FieldByName, hn, if_false] at hf
      have hn2 : ¬ n = name := fun h => hn (hhead.1.symm.trans h)
      simp only [Record.set, hn2, if_false]
      exact List.Forall₂.cons hhead (ih hf)

theorem decodeField_ok_inv (fl : FloatLib) (tt : RType) (row : List String) (obj obj1 : Record)
    (f : String) (i : Nat) (h : decodeField fl (some tt) row obj f i = .ok obj1) :
    ∃ field v, FieldByName tt.VisibleFields f = some field ∧ field.IsExported = true ∧
      obj1 = obj.set f v := by
  by_cases hk : tt.Kind = Kind.Struct
  · rw [decodeField_eq fl tt hk] at h
    cases hc : cellOutcome fl tt row f i with
    | err e => rw [hc] at h; exact Outcome.noConfusion h
    | panic q => rw [hc] at h; exact Outcome.noConfusion h
    | ok v =>
      rw [hc] at h
      injection h with h
      unfold cellOutcome at hc
      cases hF : FieldByName tt.VisibleFields f with
      | none => rw [hF] at hc; exact Outcome.noConfusion hc
      | some field =>
        rw [hF] at hc
        simp only at hc
        refine ⟨field, v, rfl, ?_, h.symm⟩
        split at hc
        · split at hc
          · exact Outcome.noConfusion hc
          · split at hc
            · split at hc
              · assumption
              · exact Outcome.noConfusion hc
            · exact Outcome.noConfusion hc
            · exact Outcome.noConfusion hc
        · exact Outcome.noConfusion hc
  · simp [decodeField, hk] at h

theorem unexportedZero_decodeRow (fl : FloatLib) (tt : RType) (row : List String)
    (es : List (String × Nat)) (obj r : Record)
    (h : decodeRow fl (some tt) row es obj = .ok r)
    (hz : unexportedZero tt.VisibleFields obj) : unexportedZero tt.VisibleFields r := by
  induction es generalizing obj with
  | nil =>
    simp only [decodeRow] at h
    injection h with h
    rw [← h]
    exact hz
  | cons e rest ih =>
    obtain ⟨f, i⟩ := e
    simp only [decodeRow] at h
    cases hd : decodeField fl (some tt) row obj f i with
    | err x => rw [hd] at h; exact Outcome.noConfusion h
    | panic q => rw [hd] at h; exact Outcome.noConfusion h
    | ok obj1 =>
      rw [hd] at h
      obtain ⟨field, v, hF, hex, rfl⟩ := decodeField_ok_inv fl tt row obj obj1 f i hd
      exact ih _ h (unexportedZero_set _ _ _ field v hz hF hex)

theorem unexportedZero_Read (fl : FloatLib) (tt : RType) (p : parser) (seed : Nat)
    (rec : Record) (h : (parser.Read fl (some tt) p seed).1 = .ok rec) :
    unexportedZero tt.VisibleFields rec := by
  unfold parser.Read at h
  cases hrd : p.reader.Read with
  | mk o r =>
    rw [hrd] at h
    cases o with
    | err e => exact Outcome.noConfusion h
    | panic q => exact Outcome.noConfusion h
    | ok row =>
      exact unexportedZero_decodeRow fl tt row _ _ rec h (unexportedZero_zeroRecord _)

theorem unexportedZero_readAllLoop (fl : FloatLib) (tt : RType) (fuel : Nat) (p : parser)
    (seeds : List Nat) (objects recs : List Record)
    (hobj : ∀ rec ∈ objects, unexportedZero tt.VisibleFields rec)
    (h : (readAllLoop fl (some tt) fuel p seeds objects).1 = .ok recs) :
    ∀ rec ∈ recs, unexportedZero tt.VisibleFields rec := by
  induction fuel generalizing p seeds objects with
  | zero =>
    simp only [readAllLoop] at h
    injection h with h
    rw [← h]
    exact hobj
  | succ fuel ih =>
    cases hr : parser.Read fl (some tt) p (seeds.headD 0) with
    | mk o p1 =>
      cases o with
      | panic q =>
        rw [readAllLoop_panic fl _ fuel p p1 seeds objects q hr] at h
        exact Outcome.noConfusion h
      | err e =>
        by_cases he : e = .EOF
        · subst he
          rw [readAllLoop_EOF fl _ fuel p p1 seeds objects hr] at h
          injection h with h
          rw [← h]
          exact hobj
        · rw [readAllLoop_err fl _ fuel p p1 seeds objects e he hr] at h
          exact Outcome.noConfusion h
      | ok obj =>
        rw [readAllLoop_ok fl _ fuel p p1 seeds objects obj hr] at h
        apply ih p1 seeds.tail (objects ++ [obj]) _ h
        intro rec hrec
        rcases List.mem_append.1 hrec with h1 | h1
        · exact hobj rec h1
        · simp only [List.mem_singleton] at h1
          subst h1
          exact unexportedZero_Read fl tt p (seeds.headD 0) rec (by rw [hr])

/-- C11: `getFields` returns exactly the exported visible fields, in declaration order; in
every record that `Read` or `ReadAll` returns, every field that is not exported holds the
zero value of its kind; and a header whose transformed names are the exported field names is
accepted whatever unexported fields the struct has. -/
theorem unexported_fields_ignored (fl : FloatLib) (tt : RType) :
    (∀ fields, getFields (some tt) = .ok fields →
      fields = tt.VisibleFields.filter (·.IsExported)) ∧
    (∀ p seed rec, (parser.Read fl (some tt) p seed).1 = .ok rec →
      unexportedZero tt.VisibleFields rec) ∧
    (∀ p seeds recs, (parser.ReadAll fl (some tt) p seeds).1 = .ok recs →
      ∀ rec ∈ recs, unexportedZero tt.VisibleFields rec) ∧
    (∀ hdr evs opts, tt.Kind = Kind.Struct →
      tt.VisibleFields.filter (·.IsExported) ≠ [] →
      ((tt.VisibleFields.filter (·.IsExported)).map (·.Name)).Nodup →
      (getHeader (getOptions opts) hdr).Perm
        ((tt.VisibleFields.filter (·.IsExported)).map (·.Name)) →
      ∃ p, NewParser (some tt) (some (.record hdr :: evs)) opts = .ok p) := by
  refine ⟨?_, unexportedZero_Read fl tt, ?_, ?_⟩
  · intro fields h
    by_cases hk : tt.Kind = Kind.Struct
    · rw [getFields_struct tt hk] at h
      split at h
      · exact Outcome.noConfusion h
      · split at h
        · exact Outcome.noConfusion h
        · injection h with h
          exact h.symm
    · simp [getFields, hk] at h
  · intro p seeds recs h
    exact unexportedZero_readAllLoop fl tt _ p seeds [] recs (by simp) h
  · intro hdr evs opts hk hne hnd hperm
    exact ⟨_, NewParser_of_perm tt hdr evs opts hk hne hnd hperm⟩

theorem unexported_fields_ignored_witness :
    getFields (some simpleObj) = .ok (simpleObj.VisibleFields.filter (·.IsExported)) ∧
    unexportedZero simpleObj.VisibleFields
      [("Ident", .int 1), ("Name", .string "foo"), ("OtherThing", .string "bar"),
        ("hiddenFieldsAreIgnored", .uint 0)] ∧
    ∃ p, NewParser (some simpleObj)
      (some (.record ["ident", "name", "other_thing"] :: [])) [] = .ok p :=
  ⟨by decide,
   (unexported_fields_ignored noFloats simpleObj).2.1 simpleParser 0 _ (by decide),
   (unexported_fields_ignored noFloats simpleObj).2.2.2 ["ident", "name", "other_thing"] [] []
     rfl (by decide) (by decide) (List.Perm.refl _)⟩

/-! ## The end of the input -/

theorem decodeRow_ne_EOF (fl : FloatLib) (T : TypeParam) (row : List String)
    (es : List (String × Nat)) (obj : Record) : decodeRow fl T row es obj ≠ .err .EOF := by
  intro h
  cases T with
  | none =>
    cases es with
    | nil => exact Outcome.noConfusion h
    | cons e rest =>
      obtain ⟨f, i⟩ := e
      simp [decodeRow, decodeField] at h
  | some tt =>
    by_cases hk : tt.Kind = Kind.Struct
    · obtain ⟨msg, hmsg⟩ := decodeRow_err_errorf fl tt hk row es obj _ h
      exact Error.noConfusion hmsg
    · cases es with
      | nil => exact Outcome.noConfusion h
      | cons e rest =>
        obtain ⟨f, i⟩ := e
        simp [decodeRow, decodeField, hk] at h

theorem parser_eta (p : parser) : { p with reader := p.reader } = p := by
  cases p
  rfl

theorem Read_EOF_iff (fl : FloatLib) (T : TypeParam) (p : parser) (seed : Nat) :
    (parser.Read fl T p seed).1 = .err .EOF ↔ p.reader.input = some [] := by
  constructor
  · intro h
    cases hin : p.reader.input with
    | none => simp [parser.Read, CsvReader.Read, hin] at h
    | some es =>
      cases es with
      | nil => rfl
      | cons ev rest =>
        exfalso
        cases ev with
        | failure msg => simp [parser.Read, CsvReader.Read, hin] at h
        | record cells =>
          by_cases hpos : p.reader.FieldsPerRecord > 0
          · by_cases hlen : cells.length = p.reader.FieldsPerRecord
            · simp only [parser.Read, CsvReader.Read, hin, hpos, hlen, if_true, ne_eq,
                not_true_eq_false, if_false] at h
              exact decodeRow_ne_EOF fl T _ _ _ h
            · simp [parser.Read, CsvReader.Read, hin, hpos, hlen] at h
          · simp only [parser.Read, CsvReader.Read, hin, hpos, if_false] at h
            exact decodeRow_ne_EOF fl T _ _ _ h
  · intro h
    simp [parser.Read, CsvReader.Read, h]

theorem Read_at_EOF (fl : FloatLib) (T : TypeParam) (p : parser) (seed : Nat)
    (h : p.reader.input = some []) : parser.Read fl T p seed = (.err .EOF, p) := by
  have : p.reader.Read = (.err .EOF, p.reader) := by simp [CsvReader.Read, h]
  simp only [parser.Read, this, parser_eta]

/-- C15: the end of the input is a terminal state. Once `Read` has returned the end-of-input
signal, the parser is left as it was, binding included; every later `Read` returns the same
signal and no record, and every later `ReadAll` returns an empty result and no error, both
leaving the parser in the same state. -/
theorem EOF_terminal (fl : FloatLib) (T : TypeParam) (p : parser) (seed : Nat)
    (h : (parser.Read fl T p seed).1 = .err .EOF) :
    (parser.Read fl T p seed).2.header = p.header ∧
    (∀ s, parser.Read fl T (parser.Read fl T p seed).2 s =
      (.err .EOF, (parser.Read fl T p seed).2)) ∧
    (∀ seeds, parser.ReadAll fl T (parser.Read fl T p seed).2 seeds =
      (.ok [], (parser.Read fl T p seed).2)) := by
  have hin := (Read_EOF_iff fl T p seed).1 h
  have hp : (parser.Read fl T p seed).2 = p := by rw [Read_at_EOF fl T p seed hin]
  rw [hp]
  refine ⟨rfl, fun s => Read_at_EOF fl T p s hin, fun seeds => ?_⟩
  rw [ReadAll_eq fl T p seeds [] hin]
  exact readAllLoop_EOF fl T 0 p p seeds [] (Read_at_EOF fl T p _ hin)

theorem EOF_terminal_witness :
    parser.ReadAll noFloats (some simpleObj)
      (parser.Read noFloats (some simpleObj)
        { simpleParser with reader := { FieldsPerRecord := 3, input := some [] } } 0).2 [1, 2] =
      (.ok [], (parser.Read noFloats (some simpleObj)
        { simpleParser with reader := { FieldsPerRecord := 3, input := some [] } } 0).2) :=
  (EOF_terminal noFloats (some simpleObj)
    { simpleParser with reader := { FieldsPerRecord := 3, input := some [] } } 0
    (by decide)).2.2 [1, 2]

/-! ## No partial results -/

theorem Read_ok_pending (fl : FloatLib) (T : TypeParam) (p : parser) (seed : Nat) (r : Record)
    (h : (parser.Read fl T p seed).1 = .ok r) :
    (parser.Read fl T p seed).2.reader.pending + 1 = p.reader.pending := by
  cases hin : p.reader.input with
  | none => simp [parser.Read, CsvReader.Read, hin] at h
  | some es =>
    cases es with
    | nil => simp [parser.Read, CsvReader.Read, hin] at h
    | cons ev rest =>
      cases ev with
      | failure msg => simp [parser.Read, CsvReader.Read, hin] at h
      | record cells =>
        by_cases hpos : p.reader.FieldsPerRecord > 0
        · by_cases hlen : cells.length = p.reader.FieldsPerRecord
          · simp [parser.Read, CsvReader.Read, CsvReader.pending, hin, hpos, hlen]
          · simp [parser.Read, CsvReader.Read, hin, hpos, hlen] at h
        · simp [parser.Read, CsvReader.Read, CsvReader.pending, hin, hpos]

theorem nthRead_succ (fl : FloatLib) (T : TypeParam) (k : Nat) (p : parser) (seeds : List Nat) :
    nthRead fl T (k + 1) p seeds =
      nthRead fl T k (parser.Read fl T p (seeds.headD 0)).2 seeds.tail := rfl

/-- While the calls of `Read` return records, the loop of `ReadAll` accumulates them and goes
on from the state the calls leave. -/
theorem readAllLoop_trace (fl : FloatLib) (T : TypeParam) (recs : List Record) (p : parser)
    (seeds : List Nat) (objects : List Record)
    (h : ∀ j r, recs.get? j = some r → nthRead fl T j p seeds = .ok r) :
    readAllLoop fl T (p.reader.pending + 1) p seeds objects =
      readAllLoop fl T ((afterReads fl T recs.length p seeds).1.reader.pending + 1)
        (afterReads fl T recs.length p seeds).1 (afterReads fl T recs.length p seeds).2
        (objects ++ recs) ∧
    recs.length + (afterReads fl T recs.length p seeds).1.reader.pending = p.reader.pending := by
  induction recs generalizing p seeds objects with
  | nil => simp [afterReads]
  | cons r rest ih =>
    have h0 : (parser.Read fl T p (seeds.headD 0)).1 = .ok r := h 0 r rfl
    have hpend := Read_ok_pending fl T p (seeds.headD 0) r h0
    have hpair : parser.Read fl T p (seeds.headD 0) =
        (.ok r, (parser.Read fl T p (seeds.headD 0)).2) := by
      rw [← h0]
    have hrest : ∀ j r1, rest.get? j = some r1 →
        nthRead fl T j (parser.Read fl T p (seeds.headD 0)).2 seeds.tail = .ok r1 := by
      intro j r1 hj
      rw [← nthRead_succ]
      exact h (j + 1) r1 (by simpa using hj)
    obtain ⟨ih1, ih2⟩ := ih (parser.Read fl T p (seeds.headD 0)).2 seeds.tail
      (objects ++ [r]) hrest
    constructor
    · rw [← hpend, readAllLoop_ok fl T _ p _ seeds objects r hpair, ih1]
      simp [afterReads]
    · simp only [List.length_cons, afterReads]
      omega

/-- C14: `ReadAll` returns no partial result. If, after calls of `Read` that returned the
records `recs`, a call returns an error other than the end of the input, `ReadAll` returns
that error and no record; if it returns the end of the input, `ReadAll` returns `recs`, the
records of all the remaining rows in order, and no error. One of the two happens, or a call
panics, after at most as many records as there are pending rows. -/
theorem ReadAll_no_partial_results (fl : FloatLib) (T : TypeParam) (p : parser)
    (seeds : List Nat) :
    (∀ (recs : List Record) (e : Error),
      (∀ j r, recs.get? j = some r → nthRead fl T j p seeds = .ok r) →
      nthRead fl T recs.length p seeds = .err e → e ≠ .EOF →
      (parser.ReadAll fl T p seeds).1 = .err e) ∧
    (∀ recs : List Record,
      (∀ j r, recs.get? j = some r → nthRead fl T j p seeds = .ok r) →
      nthRead fl T recs.length p seeds = .err .EOF →
      (parser.ReadAll fl T p seeds).1 = .ok recs) ∧
    (∃ recs : List Record, recs.length ≤ p.reader.pending ∧
      (∀ j r, recs.get? j = some r → nthRead fl T j p seeds = .ok r) ∧
      (nthRead fl T recs.length p seeds).records = none) := by
  refine ⟨?_, ?_, ?_⟩
  · intro recs e htrace herr hne
    obtain ⟨h1, _⟩ := readAllLoop_trace fl T recs p seeds [] htrace
    unfold parser.ReadAll
    rw [h1]
    have hpair : parser.Read fl T (afterReads fl T recs.length p seeds).1
        ((afterReads fl T recs.length p seeds).2.headD 0) =
        (.err e, (parser.Read fl T (afterReads fl T recs.length p seeds).1
          ((afterReads fl T recs.length p seeds).2.headD 0)).2) := by
      unfold nthRead at herr
      rw [← herr]
    rw [readAllLoop_err fl T _ _ _ _ _ e hne hpair]
  · intro recs htrace herr
    obtain ⟨h1, _⟩ := readAllLoop_trace fl T recs p seeds [] htrace
    unfold parser.ReadAll
    rw [h1]
    have hpair : parser.Read fl T (afterReads fl T recs.length p seeds).1
        ((afterReads fl T recs.length p seeds).2.headD 0) =
        (.err .EOF, (parser.Read fl T (afterReads fl T recs.length p seeds).1
          ((afterReads fl T recs.length p seeds).2.headD 0)).2) := by
      unfold nthRead at herr
      rw [← herr]
    rw [readAllLoop_EOF fl T _ _ _ _ _ hpair]
    simp
  · suffices hs : ∀ (n : Nat) (p : parser) (seeds : List Nat), p.reader.pending = n →
        ∃ recs : List Record, recs.length ≤ n ∧
          (∀ j r, recs.get? j = some r → nthRead fl T j p seeds = .ok r) ∧
          (nthRead fl T recs.length p seeds).records = none from
      hs p.reader.pending p seeds rfl
    intro n
    induction n with
    | zero =>
      intro p seeds hp
      refine ⟨[], Nat.le_refl _, fun j r hj => by simp at hj, ?_⟩
      cases hr : (parser.Read fl T p (seeds.headD 0)).1 with
      | ok r =>
        have := Read_ok_pending fl T p _ r hr
        omega
      | err e =>
        show (parser.Read fl T p (seeds.headD 0)).1.records = none
        rw [hr]; rfl
      | panic q =>
        show (parser.Read fl T p (seeds.headD 0)).1.records = none
        rw [hr]; rfl
    | succ n ih =>
      intro p seeds hp
      cases hr : (parser.Read fl T p (seeds.headD 0)).1 with
      | err e =>
        exact ⟨[], Nat.zero_le _, fun j r hj => by simp at hj,
          by show (parser.Read fl T p (seeds.headD 0)).1.records = none; rw [hr]; rfl⟩
      | panic q =>
        exact ⟨[], Nat.zero_le _, fun j r hj => by simp at hj,
          by show (parser.Read fl T p (seeds.headD 0)).1.records = none; rw [hr]; rfl⟩
      | ok r =>
        have hpend := Read_ok_pending fl T p _ r hr
        obtain ⟨recs, hlen, htr, hend⟩ :=
          ih (parser.Read fl T p (seeds.headD 0)).2 seeds.tail (by omega)
        refine ⟨r :: recs, by simpa using hlen, ?_, ?_⟩
        · intro j r1 hj
          cases j with
          | zero =>
            simp only [List.get?_cons_zero, Option.some.injEq] at hj
            subst hj
            exact hr
          | succ j =>
            rw [nthRead_succ]
            exact htr j r1 (by simpa using hj)
        · simp only [List.length_cons]
          rw [nthRead_succ]
          exact hend

theorem ReadAll_no_partial_results_witness :
    (parser.ReadAll noFloats (some twoInts)
      { twoIntsParser with
        reader := { FieldsPerRecord := 2, input := some [.record ["1", "2"], .record ["x", "3"]] } }
      []).1 = .err (.errorf "failed to convert \"x\" to int") :=
  (ReadAll_no_partial_results noFloats (some twoInts)
    { twoIntsParser with
      reader := { FieldsPerRecord := 2, input := some [.record ["1", "2"], .record ["x", "3"]] } }
    []).1 [[("A", .int 1), ("B", .int 2)]] _
    (fun j r hj => by
      cases j with
      | zero =>
        simp only [List.get?_cons_zero, Option.some.injEq] at hj
        subst hj
        decide
      | succ j => simp at hj)
    (by decide) (by decide)

/-! ## Row indexing -/

theorem parseCell_ne_panic (fl : FloatLib) (k : Kind) (cell : String) (q : Panic) :
    parseCell fl k cell ≠ .panic q := by
  intro h
  cases k <;> simp only [parseCell] at h <;>
    first
      | exact Outcome.noConfusion h
      | (split at h <;> exact Outcome.noConfusion h)

theorem cellOutcome_index_panic (fl : FloatLib) (tt : RType) (row : List String) (f : String)
    (i : Nat) (h : cellOutcome fl tt row f i = .panic .indexOutOfRange) :
    row.get? i = none := by
  unfold cellOutcome at h
  split at h
  · exact Outcome.noConfusion h
  · split at h
    · split at h
      · assumption
      · split at h
        · split at h
          · exact Outcome.noConfusion h
          · injection h with h
            exact Panic.noConfusion h
        · exact Outcome.noConfusion h
        · rename_i q hq
          exact absurd hq (parseCell_ne_panic fl _ _ q)
    · exact Outcome.noConfusion h

theorem decodeField_index_panic (fl : FloatLib) (T : TypeParam) (row : List String)
    (obj : Record) (f : String) (i : Nat)
    (h : decodeField fl T row obj f i = .panic .indexOutOfRange) : row.get? i = none := by
  cases T with
  | none => simp [decodeField] at h
  | some tt =>
    by_cases hk : tt.Kind = Kind.Struct
    · rw [decodeField_eq fl tt hk] at h
      cases hc : cellOutcome fl tt row f i with
      | ok v => rw [hc] at h; exact Outcome.noConfusion h
      | err e => rw [hc] at h; exact Outcome.noConfusion h
      | panic q =>
        rw [hc] at h
        injection h with h
        subst h
        exact cellOutcome_index_panic fl tt row f i hc
    · simp [decodeField, hk] at h

theorem decodeRow_index_panic (fl : FloatLib) (T : TypeParam) (row : List String)
    (es : List (String × Nat)) (obj : Record)
    (h : decodeRow fl T row es obj = .panic .indexOutOfRange) :
    ∃ e ∈ es, row.get? e.2 = none := by
  induction es generalizing obj with
  | nil => exact Outcome.noConfusion h
  | cons e rest ih =>
    obtain ⟨f, i⟩ := e
    simp only [decodeRow] at h
    cases hd : decodeField fl T row obj f i with
    | ok obj1 =>
      rw [hd] at h
      obtain ⟨e, he, hn⟩ := ih obj1 h
      exact ⟨e, List.mem_cons_of_mem _ he, hn⟩
    | err x => rw [hd] at h; exact Outcome.noConfusion h
    | panic q =>
      rw [hd] at h
      injection h with h
      subst h
      exact ⟨(f, i), by simp, decodeField_index_panic fl T row obj f i hd⟩

theorem mapHeader_index_lt (fields : List StructField) (header : List String) (m : GoMap)
    (h : mapHeader fields header = .ok m) : ∀ e ∈ m, e.2 < header.length := by
  obtain ⟨_, hall, _, rfl⟩ := (mapHeader_ok_iff fields header m).1 h
  intro e he
  obtain ⟨F, hF, rfl⟩ := List.mem_map.1 he
  exact List.indexOf_lt_length.2 (hall F hF)

theorem NewParser_fields_ne (tt : RType) (reader : IoReader) (opts : List ParseOption)
    (p : parser) (h : NewParser (some tt) reader opts = .ok p) :
    tt.Kind = Kind.Struct ∧ tt.VisibleFields.filter (·.IsExported) ≠ [] := by
  have hk : tt.Kind = Kind.Struct := by
    by_contra hk
    simp [NewParser, getFields, hk] at h
  refine ⟨hk, ?_⟩
  intro h0
  by_cases hv : tt.VisibleFields = [] <;>
    simp [NewParser, getFields_struct tt hk, h0, hv] at h

/-- The state a call of `Read` leaves: the binding is the same, and so is the number of cells
per record once it is fixed. -/
theorem Read_state (fl : FloatLib) (T : TypeParam) (p : parser) (seed : Nat) :
    (parser.Read fl T p seed).2.header = p.header ∧
    (0 < p.reader.FieldsPerRecord →
      (parser.Read fl T p seed).2.reader.FieldsPerRecord = p.reader.FieldsPerRecord) := by
  cases hin : p.reader.input with
  | none => simp [parser.Read, CsvReader.Read, hin]
  | some es =>
    cases es with
    | nil => simp [parser.Read, CsvReader.Read, hin]
    | cons ev rest =>
      cases ev with
      | failure msg => simp [parser.Read, CsvReader.Read, hin]
      | record cells =>
        by_cases hpos : p.reader.FieldsPerRecord > 0
        · by_cases hlen : cells.length = p.reader.FieldsPerRecord
          · simp [parser.Read, CsvReader.Read, hin, hpos, hlen]
          · simp [parser.Read, CsvReader.Read, hin, hpos, hlen]
        · simp only [parser.Read, CsvReader.Read, hin, hpos, if_false, true_and]
          intro h
          exact h.elim

/-- A call of `Read` on a parser whose reader checks the length of the rows and whose binding
holds indices below that length does not index a row out of range. -/
theorem Read_index_safe (fl : FloatLib) (T : TypeParam) (p : parser) (seed : Nat)
    (hpos : 0 < p.reader.FieldsPerRecord)
    (hidx : ∀ e ∈ p.header, e.2 < p.reader.FieldsPerRecord) :
    (parser.Read fl T p seed).1 ≠ .panic .indexOutOfRange := by
  intro h
  cases hin : p.reader.input with
  | none => simp [parser.Read, CsvReader.Read, hin] at h
  | some es =>
    cases es with
    | nil => simp [parser.Read, CsvReader.Read, hin] at h
    | cons ev rest =>
      cases ev with
      | failure msg => simp [parser.Read, CsvReader.Read, hin] at h
      | record cells =>
        by_cases hlen : cells.length = p.reader.FieldsPerRecord
        · simp only [parser.Read, CsvReader.Read, hin, hpos, hlen, gt_iff_lt, if_true, ne_eq,
            not_true_eq_false, if_false] at h
          obtain ⟨e, he, hn⟩ := decodeRow_index_panic fl T cells _ _ h
          have h1 := hidx e ((rangeOrder_perm seed p.header).subset he)
          rw [List.get?_eq_none] at hn
          omega
        · simp [parser.Read, CsvReader.Read, hin, hpos, hlen] at h

/-- C18: row indexing in `Read` is safe. Every column index in a binding returned by
`mapHeader` is smaller than the length of the header, so decoding a row of the header's length
never indexes it out of range; and no call of `Read` on a parser built by `NewParser` does,
the csv reader passing on only rows of the header's length. -/
theorem row_index_in_range (fl : FloatLib) (T : TypeParam) :
    (∀ fields header m, mapHeader fields header = .ok m →
      (∀ e ∈ m, e.2 < header.length) ∧
      ∀ (row : List String) (es : List (String × Nat)) (obj : Record),
        row.length = header.length → (∀ e ∈ es, e ∈ m) →
        (∀ e ∈ es, (row.get? e.2).isSome = true) ∧
        decodeRow fl T row es obj ≠ .panic .indexOutOfRange) ∧
    (∀ reader opts p, NewParser T reader opts = .ok p →
      ∀ k seeds, nthRead fl T k p seeds ≠ .panic .indexOutOfRange) := by
  refine ⟨?_, ?_⟩
  · intro fields header m h
    have hlt := mapHeader_index_lt fields header m h
    refine ⟨hlt, ?_⟩
    intro row es obj hlen hsub
    have hsome : ∀ e ∈ es, (row.get? e.2).isSome = true := by
      intro e he
      have h1 := hlt e (hsub e he)
      rw [List.get?_eq_get (by omega : e.2 < row.length)]
      rfl
    refine ⟨hsome, ?_⟩
    intro hp
    obtain ⟨e, he, hn⟩ := decodeRow_index_panic fl T row es obj hp
    have := hsome e he
    rw [hn] at this
    exact Bool.noConfusion this
  · intro reader opts p hnew k seeds
    cases T with
    | none => simp [NewParser, getFields] at hnew
    | some tt =>
      cases reader with
      | none =>
        obtain ⟨hk, _⟩ := NewParser_fields_ne tt none opts p hnew
        by_cases hv : tt.VisibleFields = [] <;>
          by_cases h0 : tt.VisibleFields.filter (·.IsExported) = [] <;>
            simp [NewParser, getFields_struct tt hk, hv, h0, csvNewReader, CsvReader.Read] at hnew
      | some evs0 =>
        obtain ⟨hk, hne⟩ := NewParser_fields_ne tt _ opts p hnew
        cases evs0 with
        | nil =>
          by_cases hv : tt.VisibleFields = [] <;>
            simp [NewParser, getFields_struct tt hk, hv, hne, csvNewReader, CsvReader.Read] at hnew
        | cons ev evs =>
          cases ev with
          | failure msg =>
            by_cases hv : tt.VisibleFields = [] <;>
              simp [NewParser, getFields_struct tt hk, hv, hne, csvNewReader,
                CsvReader.Read] at hnew
          | record hdr =>
            obtain ⟨_, hfields, hmap, hfpr, _⟩ := NewParser_ok tt hdr evs opts p hnew
            have hlt := mapHeader_index_lt _ _ _ hmap
            rw [getHeader_length] at hlt
            have hpos : 0 < hdr.length := by
              obtain ⟨_, hall, _, _⟩ := (mapHeader_ok_iff _ _ _).1 hmap
              rw [hfields] at hall
              obtain ⟨F, hF⟩ := List.exists_mem_of_ne_nil _ hne
              rw [← getHeader_length (getOptions opts) hdr]
              exact List.length_pos_of_mem (hall F hF)
            suffices hs : ∀ (k : Nat) (q : parser) (seeds : List Nat),
                q.header = p.header → q.reader.FieldsPerRecord = hdr.length →
                nthRead fl (some tt) k q seeds ≠ .panic .indexOutOfRange from
              hs k p seeds rfl hfpr
            intro k
            induction k with
            | zero =>
              intro q seeds hq1 hq2
              exact Read_index_safe fl (some tt) q _ (by rw [hq2]; exact hpos)
                (fun e he => by rw [hq2]; exact hlt e (hq1 ▸ he))
            | succ k ih =>
              intro q seeds hq1 hq2
              rw [nthRead_succ]
              have hst := Read_state fl (some tt) q (seeds.headD 0)
              exact ih _ seeds.tail (hst.1.trans hq1)
                ((hst.2 (by rw [hq2]; exact hpos)).trans hq2)

theorem row_index_in_range_witness :
    (∀ e ∈ ([("A", 1), ("B", 0)] : GoMap), e.2 < ["B", "A"].length) ∧
    nthRead noFloats (some twoInts) 1 twoIntsParser [] ≠ .panic .indexOutOfRange :=
  ⟨((row_index_in_range noFloats (some twoInts)).1 [fieldA, fieldB] ["B", "A"] _
      (by decide)).1,
   (row_index_in_range noFloats (some twoInts)).2
      (some [.record ["a", "b"], .record ["x", "y"]]) [] twoIntsParser (by
        rw [NewParser_of_perm twoInts ["a", "b"] [.record ["x", "y"]] [] rfl (by decide)
          (by decide) (List.Perm.refl _)]
        rfl) 1 []⟩

end Csv2structs
